import Mathlib

/-!
# Verification of the UnMask graph-analytics core (`src/backend/graph_engine.py`)

This file gives a shallow embedding in Lean 4 of the batch analysis pipeline of
`graph_engine.py` — graph construction, cycle detection with Tarjan SCC
pruning, smurfing detection with sliding-window temporal density, shell-chain
discovery, legitimacy filtering, suspicion scoring / ring assembly and the
visualization graph projection — and proves or refutes the specification
claims about it.

Modelling conventions:
* Python floats are modelled as `ℚ` (exact rationals).  `float(x)` conversion
  of the `amount` field is modelled by making the field an `Option ℚ`
  (`none` = the conversion raises, which aborts the whole build, since the
  conversion happens outside the `try` block in the source).
* Python `dict`s (insertion ordered) are modelled as association lists
  (`List (String × α)`) with in-place update; Python `set`s whose iteration
  order is observed downstream are modelled as first-insertion-ordered
  deduplicated lists.
* `round` is Python's round-half-to-even (`pyRound`).
* The wall-clock budget of the cycle detector (`MAX_TIME_S`) is modelled as
  never expiring (time is out of scope); the `MAX_CYCLES` count budget is
  modelled exactly.
* `datetime.strptime` for the six fixed formats is modelled by an explicit
  field parser with calendar validation; `datetime.timestamp()` is modelled
  with a zero UTC offset (the spec allows any consistent local-time
  interpretation).
* The two presentation-only floating-point fields computed with `math.log2`
  (`sizeVal` of nodes, `weight` of edges) are omitted from the projection
  record: no claim mentions them and `math.log2` is irrational-valued.
-/

set_option maxRecDepth 100000

namespace UnMask

/-! ## Association lists modelling Python dicts (insertion ordered) -/

/-- Lookup in an association list (first binding wins), `d.get(k)`. -/
def alookup {α : Type} (l : List (String × α)) (k : String) : Option α :=
  (l.find? (fun p => p.1 == k)).map (fun p => p.2)

/-- `k in d` for an association list. -/
def acontains {α : Type} (l : List (String × α)) (k : String) : Bool :=
  l.any (fun p => p.1 == k)

/-- `d[k] = v`: replace the first binding of `k` in place, or append a new
binding at the end (Python dict insertion semantics). -/
def aset {α : Type} : List (String × α) → String → α → List (String × α)
  | [], k, v => [(k, v)]
  | (k1, v1) :: rest, k, v =>
      if k1 == k then (k, v) :: rest else (k1, v1) :: aset rest k v

/-- `d[k] = d.get(k, 0) + x` (used for `+=` after an implicit/explicit
`setdefault`; in the pipeline the key is always present where Python would
otherwise raise `KeyError`). -/
def aadd (l : List (String × ℚ)) (k : String) (x : ℚ) : List (String × ℚ) :=
  aset l k (((alookup l k).getD 0) + x)

/-- Add an element to a Python `set` modelled as a dedup list
(first-insertion order). -/
def insertOnce (l : List String) (x : String) : List String :=
  if l.contains x then l else l ++ [x]

/-- Add many elements (`set.update`). -/
def insertManyOnce (l : List String) (xs : List String) : List String :=
  xs.foldl insertOnce l

/-- `patterns[a].add(tag)`: insert a tag into the tag set of `a` (the set is
modelled as a dedup list), creating the entry when absent
(`patterns.setdefault(a, set())`). -/
def atag (l : List (String × List String)) (k : String) (t : String) :
    List (String × List String) :=
  let cur := (alookup l k).getD []
  aset l k (if cur.contains t then cur else cur ++ [t])

/-! ## Python `round` (banker's rounding, round half to even) -/

/-- An integer as a rational, built directly as a reduced fraction with
denominator 1.  (This keeps kernel/elaborator reduction shallow, unlike the
`Int.cast` instance chain or the `mkRat` normalisation path.) -/
def ratOfInt (z : ℤ) : ℚ :=
  ⟨z, 1, one_ne_zero, Nat.coprime_one_right z.natAbs⟩

/-- Python `round(q)`: nearest integer, ties to even. -/
def pyRound (q : ℚ) : ℤ :=
  let f : ℤ := ⌊q⌋
  let r : ℚ := q - ratOfInt f
  if r < 1/2 then f
  else if 1/2 < r then f + 1
  else if f % 2 = 0 then f else f + 1

/-- Python `round(q, 1)`. -/
def pyRound1 (q : ℚ) : ℚ := ratOfInt (pyRound (q * 10)) / 10

/-- Python `round(q, 2)`. -/
def pyRound2 (q : ℚ) : ℚ := ratOfInt (pyRound (q * 100)) / 100

/-! ## Timestamp parsing (`DATE_FORMATS` of `build_graph`)

`datetime.strptime` is modelled field by field: `%Y` is exactly four digits,
`%d`, `%m`, `%H`, `%M`, `%S` are one or two digits, separators are literal,
and the resulting calendar date is validated (month range, day-of-month
range with leap years, hour/minute/second ranges) exactly as `datetime`
construction does.  `datetime.timestamp()` is modelled with zero UTC offset
via the standard civil-days algorithm. -/

/-- `str.strip()` on the character list (leading and trailing whitespace
removed). -/
def trimChars (cs : List Char) : List Char :=
  ((cs.dropWhile (fun c => c.isWhitespace)).reverse.dropWhile
    (fun c => c.isWhitespace)).reverse

/-- Split a character list at every occurrence of a separator (segments may
be empty). -/
def splitChar (sep : Char) : List Char → List (List Char)
  | [] => [[]]
  | c :: rest =>
      let r := splitChar sep rest
      if c == sep then [] :: r
      else
        match r with
        | [] => [[c]]
        | g :: gs => (c :: g) :: gs

/-- Digits of a field as a number, `none` when empty or non-digit. -/
def parseDigits (cs : List Char) : Option ℕ :=
  if cs ≠ [] ∧ cs.all (fun c => c.isDigit) then
    some (cs.foldl (fun n c => n * 10 + (c.toNat - 48)) 0)
  else none

/-- A numeric field of between `lo` and `hi` digits. -/
def parseNumField (cs : List Char) (lo hi : ℕ) : Option ℕ :=
  if lo ≤ cs.length ∧ cs.length ≤ hi then parseDigits cs else none

/-- Gregorian leap year. -/
def isLeap (y : ℕ) : Bool :=
  (y % 4 == 0 && y % 100 != 0) || y % 400 == 0

/-- Days in a month. -/
def daysInMonth (y m : ℕ) : ℕ :=
  if m = 2 then (if isLeap y then 29 else 28)
  else if m = 4 ∨ m = 6 ∨ m = 9 ∨ m = 11 then 30
  else 31

/-- Days since 1970-01-01 of a civil date (Hinnant's algorithm). -/
def daysFromCivil (y m d : ℕ) : ℤ :=
  let yi : ℤ := if m ≤ 2 then (y : ℤ) - 1 else (y : ℤ)
  let era : ℤ := (if 0 ≤ yi then yi else yi - 399) / 400
  let yoe : ℤ := yi - era * 400
  let mp : ℤ := ((m : ℤ) + 9) % 12
  let doy : ℤ := (153 * mp + 2) / 5 + (d : ℤ) - 1
  let doe : ℤ := yoe * 365 + yoe / 4 - yoe / 100 + doy
  era * 146097 + doe - 719468

/-- Epoch seconds of a validated date-time (zero UTC offset model of
`datetime.timestamp()`). -/
def civilEpoch (y m d hh mi ss : ℕ) : ℚ :=
  ratOfInt (daysFromCivil y m d * 86400 + hh * 3600 + mi * 60 + ss)

/-- Which of the three field orders a date part uses. -/
inductive DateOrder : Type
  | ymd
  | dmy
  | mdy

/-- Parse the date part `a sep b sep c` under a field order, with calendar
validation (`datetime` raises `ValueError` for out-of-range fields, so the
format is rejected). -/
def parseDatePart (a b c : List Char) (ord : DateOrder) : Option (ℕ × ℕ × ℕ) :=
  let ymd? : Option (ℕ × ℕ × ℕ) :=
    match ord with
    | DateOrder.ymd =>
        match parseNumField a 4 4, parseNumField b 1 2, parseNumField c 1 2 with
        | some y, some m, some d => some (y, m, d)
        | _, _, _ => none
    | DateOrder.dmy =>
        match parseNumField a 1 2, parseNumField b 1 2, parseNumField c 4 4 with
        | some d, some m, some y => some (y, m, d)
        | _, _, _ => none
    | DateOrder.mdy =>
        match parseNumField a 1 2, parseNumField b 1 2, parseNumField c 4 4 with
        | some m, some d, some y => some (y, m, d)
        | _, _, _ => none
  match ymd? with
  | some (y, m, d) =>
      if 1 ≤ y ∧ 1 ≤ m ∧ m ≤ 12 ∧ 1 ≤ d ∧ d ≤ daysInMonth y m then
        some (y, m, d)
      else none
  | none => none

/-- Parse the time part (`HH:MM` or `HH:MM:SS` according to the format). -/
def parseTimePart (parts : List (List Char)) (withSec : Bool) : Option (ℕ × ℕ × ℕ) :=
  match parts, withSec with
  | [h, mi], false =>
      match parseNumField h 1 2, parseNumField mi 1 2 with
      | some hv, some mv =>
          if hv ≤ 23 ∧ mv ≤ 59 then some (hv, mv, 0) else none
      | _, _ => none
  | [h, mi, s], true =>
      match parseNumField h 1 2, parseNumField mi 1 2, parseNumField s 1 2 with
      | some hv, some mv, some sv =>
          if hv ≤ 23 ∧ mv ≤ 59 ∧ sv ≤ 59 then some (hv, mv, sv) else none
      | _, _, _ => none
  | _, _ => none

/-- Try to parse a trimmed timestamp under one format
(date separator, field order, with/without seconds). -/
def parseWithFormat (t : List Char) (sep : Char) (ord : DateOrder) (withSec : Bool) :
    Option ℚ :=
  match splitChar ' ' t with
  | [datePart, timePart] =>
      match splitChar sep datePart with
      | [a, b, c] =>
          match parseDatePart a b c ord,
                parseTimePart (splitChar ':' timePart) withSec with
          | some (y, m, d), some (hh, mi, ss) => some (civilEpoch y m d hh mi ss)
          | _, _ => none
      | _ => none
  | _ => none

/-- The six formats of `DATE_FORMATS`, tried in priority order on the
trimmed timestamp; `none` when all fail (the record is then skipped). -/
def parseTimestamp (s : String) : Option ℚ :=
  let t := trimChars s.toList
  (parseWithFormat t '-' DateOrder.ymd true).or
    ((parseWithFormat t '-' DateOrder.dmy false).or
      ((parseWithFormat t '-' DateOrder.dmy true).or
        ((parseWithFormat t '-' DateOrder.mdy false).or
          ((parseWithFormat t '/' DateOrder.ymd true).or
            (parseWithFormat t '/' DateOrder.dmy false)))))

/-! ## Data model and `build_graph` -/

/-- An input record.  `amount` is the result of `float(tx["amount"])`:
`some q` when the conversion succeeds (any value, including negative ones),
`none` when it raises — which happens *outside* the `try` block in the
source, so it aborts the whole build. -/
structure Tx : Type where
  transaction_id : String
  sender_id : String
  receiver_id : String
  amount : Option ℚ
  timestamp : String
deriving DecidableEq, Repr

/-- An out-edge of the adjacency list. -/
structure OutEdge : Type where
  receiver : String
  amount : ℚ
  epoch : ℚ
  txId : String
deriving DecidableEq, Repr

/-- An in-edge of the reverse adjacency list. -/
structure InEdge : Type where
  sender : String
  amount : ℚ
  epoch : ℚ
  txId : String
deriving DecidableEq, Repr

/-- Per-node statistics. -/
structure NodeStats : Type where
  inDeg : ℕ := 0
  outDeg : ℕ := 0
  totalIn : ℚ := 0
  totalOut : ℚ := 0
  txCount : ℕ := 0
  epochs : List ℚ := []
deriving DecidableEq, Repr

/-- The graph produced by `build_graph`.  `nodes` models the Python set as a
first-insertion-ordered dedup list. -/
structure Graph : Type where
  adjacency : List (String × List OutEdge) := []
  reverseAdj : List (String × List InEdge) := []
  nodes : List String := []
  nodeStats : List (String × NodeStats) := []
deriving DecidableEq, Repr

/-- Insert one accepted record into the graph (the body of the loop of
`build_graph` after the timestamp has parsed to `epoch`). -/
def insertTx (g : Graph) (tx : Tx) (amount : ℚ) (epoch : ℚ) : Graph :=
  let sender := tx.sender_id
  let receiver := tx.receiver_id
  let nodes := insertOnce (insertOnce g.nodes sender) receiver
  let adjacency := aset g.adjacency sender
    (((alookup g.adjacency sender).getD []) ++
      [{ receiver := receiver, amount := amount, epoch := epoch,
         txId := tx.transaction_id }])
  let reverseAdj := aset g.reverseAdj receiver
    (((alookup g.reverseAdj receiver).getD []) ++
      [{ sender := sender, amount := amount, epoch := epoch,
         txId := tx.transaction_id }])
  let stats0 := if acontains g.nodeStats sender then g.nodeStats
    else aset g.nodeStats sender {}
  let stats1 := if acontains stats0 receiver then stats0
    else aset stats0 receiver {}
  let s := (alookup stats1 sender).getD {}
  let stats2 := aset stats1 sender
    { s with outDeg := s.outDeg + 1, totalOut := s.totalOut + amount,
             txCount := s.txCount + 1, epochs := s.epochs ++ [epoch] }
  let r := (alookup stats2 receiver).getD {}
  let stats3 := aset stats2 receiver
    { r with inDeg := r.inDeg + 1, totalIn := r.totalIn + amount,
             txCount := r.txCount + 1, epochs := r.epochs ++ [epoch] }
  { adjacency := adjacency, reverseAdj := reverseAdj, nodes := nodes,
    nodeStats := stats3 }

/-- The record loop of `build_graph`: a failed `float(...)` conversion
aborts (`none`), an unparseable timestamp skips the record, otherwise the
record is inserted. -/
def buildGraphAux (g : Graph) : List Tx → Option Graph
  | [] => some g
  | tx :: rest =>
      match tx.amount with
      | none => none
      | some amt =>
          match parseTimestamp tx.timestamp with
          | none => buildGraphAux g rest
          | some epoch => buildGraphAux (insertTx g tx amt epoch) rest

/-- `build_graph`. -/
def buildGraph (txs : List Tx) : Option Graph :=
  buildGraphAux {} txs

/-! ## Cycle detection (`_find_sccs`, `detect_cycles`, `_dfs`,
`_normalize_cycle`) -/

/-- Mutable state of Tarjan's algorithm in `_find_sccs`. -/
structure TarjanSt : Type where
  counter : ℕ := 0
  stack : List String := []
  onStack : List String := []
  index : List (String × ℕ) := []
  lowlink : List (String × ℕ) := []
  sccs : List (List String) := []
deriving DecidableEq, Repr

/-- Pop the stack down to (and including) `v`, returning the popped scc and
the remaining stack (`v` is on the stack whenever this is reached). -/
def popScc (v : String) : List String → List String × List String
  | [] => ([], [])
  | w :: rest =>
      if w == v then ([w], rest)
      else
        let p := popScc v rest
        (w :: p.1, p.2)

/-- `strongconnect` of `_find_sccs`.  The recursion is fuelled; the fuel
passed by `findSccs` dominates the recursion depth (bounded by the number of
nodes ever indexed), so it never runs out. -/
def strongconnect (adjacency : List (String × List OutEdge)) :
    ℕ → String → TarjanSt → TarjanSt
  | 0, _, st => st
  | fuel + 1, v, st0 =>
      let st1 : TarjanSt :=
        { st0 with
          index := aset st0.index v st0.counter,
          lowlink := aset st0.lowlink v st0.counter,
          counter := st0.counter + 1,
          stack := v :: st0.stack,
          onStack := insertOnce st0.onStack v }
      let st2 := ((alookup adjacency v).getD []).foldl
        (fun st e =>
          let w := e.receiver
          if ¬ acontains st.index w then
            let st3 := strongconnect adjacency fuel w st
            { st3 with
              lowlink := aset st3.lowlink v
                (min ((alookup st3.lowlink v).getD 0)
                     ((alookup st3.lowlink w).getD 0)) }
          else if st.onStack.contains w then
            { st with
              lowlink := aset st.lowlink v
                (min ((alookup st.lowlink v).getD 0)
                     ((alookup st.index w).getD 0)) }
          else st)
        st1
      if (alookup st2.lowlink v).getD 0 == (alookup st2.index v).getD 0 then
        let p := popScc v st2.stack
        { st2 with
          stack := p.2,
          onStack := st2.onStack.filter (fun x => ¬ p.1.contains x),
          sccs := if 3 ≤ p.1.length then st2.sccs ++ [p.1] else st2.sccs }
      else st2

/-- Fuel that dominates the `strongconnect` recursion depth: one unit per
start node plus one per edge of the adjacency structure. -/
def tarjanFuel (adjacency : List (String × List OutEdge))
    (nodeList : List String) : ℕ :=
  nodeList.length + adjacency.foldl (fun n p => n + p.2.length) 0 + 1

/-- `_find_sccs`: Tarjan's SCC algorithm, keeping only SCCs of size ≥ 3. -/
def findSccs (adjacency : List (String × List OutEdge))
    (nodeList : List String) : List (List String) :=
  (nodeList.foldl
    (fun st v =>
      if acontains st.index v then st
      else strongconnect adjacency (tarjanFuel adjacency nodeList) v st)
    {}).sccs

/-- Lexicographic comparison of character lists by code point (the
comparison Python applies to the account-id strings). -/
def charListLt : List Char → List Char → Bool
  | [], [] => false
  | [], _ :: _ => true
  | _ :: _, [] => false
  | c :: cs, d :: ds =>
      if c.toNat < d.toNat then true
      else if d.toNat < c.toNat then false
      else charListLt cs ds

/-- `a < b` on strings, by code points. -/
def strLt (a b : String) : Bool := charListLt a.toList b.toList

/-- Walk of `_normalize_cycle` computing the index of the lexicographically
smallest element (strict `<`, so the first occurrence wins). -/
def minIdxGo : List String → ℕ → ℕ → String → ℕ
  | [], _, best, _ => best
  | x :: rest, i, best, bestVal =>
      if strLt x bestVal then minIdxGo rest (i + 1) i x
      else minIdxGo rest (i + 1) best bestVal

/-- Index of the lexicographically smallest element (first occurrence),
`min_idx` of `_normalize_cycle`. -/
def minIdx : List String → ℕ
  | [] => 0
  | x :: rest => minIdxGo rest 1 0 x

/-- `_normalize_cycle`. -/
def normalizeCycle (cycle : List String) : List String :=
  let i := minIdx cycle
  cycle.drop i ++ cycle.take i

/-- The dedup key `"->".join(_normalize_cycle(path))`. -/
def cycleKey (path : List String) : String :=
  String.intercalate "->" (normalizeCycle path)

/-- Accumulating state of `_dfs`: the emitted cycles and the set of seen
normalized keys. -/
structure DfsSt : Type where
  cycles : List (List String) := []
  seen : List String := []
deriving DecidableEq, Repr

/-- `MAX_CYCLES` of `detect_cycles`. -/
def MAX_CYCLES : ℕ := 200

/-- `_dfs`.  `visited` and `path` are restored by the Python code on return,
so they are passed down by value; `cycles` and `seen` accumulate.  The fuel
is structural; the depth guard (`depth < 4` for recursion) makes a fuel of 6
always sufficient at the top-level call. -/
def dfs (adjacency : List (String × List OutEdge)) (validNodes : List String) :
    ℕ → String → String → ℕ → List String → List String → DfsSt → DfsSt
  | 0, _, _, _, _, _, st => st
  | fuel + 1, current, start, depth, visited, path, st =>
      if 5 < depth ∨ MAX_CYCLES ≤ st.cycles.length then st
      else
        let visited1 := insertOnce visited current
        let path1 := path ++ [current]
        ((alookup adjacency current).getD []).foldl
          (fun st e =>
            let nxt := e.receiver
            if ¬ validNodes.contains nxt then st
            else if nxt == start ∧ 2 ≤ depth then
              let cycleLen := path1.length
              if 3 ≤ cycleLen ∧ cycleLen ≤ 5 then
                let key := cycleKey path1
                if st.seen.contains key then st
                else { cycles := st.cycles ++ [path1], seen := st.seen ++ [key] }
              else st
            else if ¬ visited1.contains nxt ∧ depth < 4 then
              dfs adjacency validNodes fuel nxt start (depth + 1) visited1 path1 st
            else st)
          st

/-- The outer loop of `detect_cycles` over the sorted SCC candidates
(the wall-clock break is modelled as never firing; the `MAX_CYCLES` break is
checked before each start, as in the source). -/
def cyclesLoop (adjacency : List (String × List OutEdge))
    (validNodes : List String) : List String → DfsSt → DfsSt
  | [], st => st
  | s :: rest, st =>
      if MAX_CYCLES ≤ st.cycles.length then st
      else cyclesLoop adjacency validNodes rest
        (dfs adjacency validNodes 6 s s 0 [] [] st)

/-- `detect_cycles`. -/
def detectCycles (adjacency : List (String × List OutEdge))
    (nodeList : List String) (nodeStats : List (String × NodeStats)) :
    List (List String) :=
  let candidates := nodeList.filter (fun n =>
    let s := (alookup nodeStats n).getD {}
    decide (0 < s.inDeg) && decide (0 < s.outDeg))
  let sccs := findSccs adjacency candidates
  let sccNodes := sccs.foldl (fun acc scc => insertManyOnce acc scc) []
  let sccCandidates := candidates.filter (fun n => sccNodes.contains n)
  let deg : String → ℕ := fun n =>
    let s := (alookup nodeStats n).getD {}
    s.inDeg + s.outDeg
  let sorted := List.insertionSort (fun a b => deg b ≤ deg a) sccCandidates
  (cyclesLoop adjacency sccNodes sorted {}).cycles

/-! ## Smurfing detection (`detect_smurfing`, `_compute_temporal_density`) -/

/-- `TEMPORAL_WINDOW_S = 72 * 3600`. -/
def TEMPORAL_WINDOW_S : ℚ := 72 * 3600

/-- Element of a `ℚ` list at an index (in-bounds everywhere it is used). -/
def nthQ (l : List ℚ) (i : ℕ) : ℚ := l.getD i 0

/-- The inner `while` of `_compute_temporal_density`: advance `win_start`
while the value at it is more than `window_s` behind the value at `i`.  The
fuel (the list length) dominates the number of steps whenever
`0 ≤ window_s`. -/
def advanceWin (sorted : List ℚ) (windowS ei : ℚ) : ℕ → ℕ → ℕ
  | 0, ws => ws
  | fuel + 1, ws =>
      if windowS < ei - nthQ sorted ws then advanceWin sorted windowS ei fuel (ws + 1)
      else ws

/-- The outer `for` of `_compute_temporal_density`, carrying `win_start` and
`max_in_window`.  The loop is driven structurally by the suffix of the
sorted list from position `i` (its head is `sorted[i]`). -/
def tdLoopGo (sorted : List ℚ) (windowS : ℚ) :
    List ℚ → ℕ → ℕ → ℕ → ℕ
  | [], _, _, maxw => maxw
  | e :: rest, i, ws, maxw =>
      let ws1 := advanceWin sorted windowS e sorted.length ws
      tdLoopGo sorted windowS rest (i + 1) ws1 (max maxw (i - ws1 + 1))

/-- The `for i in range(len(epoch_vals))` loop of
`_compute_temporal_density`. -/
def tdLoop (sorted : List ℚ) (windowS : ℚ) : ℕ :=
  tdLoopGo sorted windowS sorted 0 0 0

/-- `_compute_temporal_density`. -/
def computeTemporalDensity (epochVals : List ℚ) (windowS : ℚ) : ℚ :=
  if epochVals.length < 2 then 0
  else
    let sorted := List.insertionSort (fun a b => a ≤ b) epochVals
    ((tdLoop sorted windowS : ℕ) : ℚ) / (epochVals.length : ℚ)

/-- A detected smurfing pattern. -/
structure SmurfPattern : Type where
  type : String
  centerAccount : String
  connectedAccounts : List String
  temporalScore : ℚ
  totalAmount : ℚ
  txCount : ℕ
deriving DecidableEq, Repr

/-- `detect_smurfing`.  `FANIN_THRESHOLD = FANOUT_THRESHOLD = 10`.  The
Python `set` of unique peers is modelled as a first-insertion-ordered dedup
list. -/
def detectSmurfing (adjacency : List (String × List OutEdge))
    (reverseAdj : List (String × List InEdge))
    (nodeStats : List (String × NodeStats)) : List SmurfPattern :=
  nodeStats.foldl
    (fun pats p =>
      let accountId := p.1
      let stats := p.2
      let pats1 :=
        if 10 ≤ stats.inDeg then
          let incoming := (alookup reverseAdj accountId).getD []
          let temporalScore :=
            computeTemporalDensity (incoming.map (fun t => t.epoch)) TEMPORAL_WINDOW_S
          if 0 < temporalScore then
            let uniqueSenders := (incoming.map (fun t => t.sender)).foldl insertOnce []
            if 10 ≤ uniqueSenders.length then
              pats ++ [{ type := "fan_in", centerAccount := accountId,
                         connectedAccounts := uniqueSenders,
                         temporalScore := temporalScore,
                         totalAmount := (incoming.map (fun t => t.amount)).sum,
                         txCount := incoming.length }]
            else pats
          else pats
        else pats
      if 10 ≤ stats.outDeg then
        let outgoing := (alookup adjacency accountId).getD []
        let temporalScore :=
          computeTemporalDensity (outgoing.map (fun t => t.epoch)) TEMPORAL_WINDOW_S
        if 0 < temporalScore then
          let uniqueReceivers := (outgoing.map (fun t => t.receiver)).foldl insertOnce []
          if 10 ≤ uniqueReceivers.length then
            pats1 ++ [{ type := "fan_out", centerAccount := accountId,
                        connectedAccounts := uniqueReceivers,
                        temporalScore := temporalScore,
                        totalAmount := (outgoing.map (fun t => t.amount)).sum,
                        txCount := outgoing.length }]
          else pats1
        else pats1
      else pats1)
    []

/-! ## Shell networks (`detect_shell_networks`) -/

/-- A detected shell chain. -/
structure ShellChain : Type where
  chain : List String
  shellAccounts : List String
  hopCount : ℕ
deriving DecidableEq, Repr

/-- The greedy `while True` loop of `detect_shell_networks`: prefer an
unvisited shell receiver (and continue from it, stopping past length 10),
otherwise extend once by the first unvisited non-shell receiver and stop.
The loop extends the chain at each continuing iteration and breaks past
length 10, so a fuel of 12 is always sufficient from a singleton chain. -/
def extendChain (adjacency : List (String × List OutEdge))
    (shells : List String) :
    ℕ → List String → List String → String → List String
  | 0, chain, _, _ => chain
  | fuel + 1, chain, chainVisited, current =>
      let outEdges := (alookup adjacency current).getD []
      match outEdges.find? (fun e =>
          shells.contains e.receiver && ¬ chainVisited.contains e.receiver) with
      | some e =>
          let chain1 := chain ++ [e.receiver]
          let chainVisited1 := chainVisited ++ [e.receiver]
          if 10 < chain1.length then chain1
          else extendChain adjacency shells fuel chain1 chainVisited1 e.receiver
      | none =>
          match outEdges.find? (fun e =>
              ¬ shells.contains e.receiver && ¬ chainVisited.contains e.receiver) with
          | some e => chain ++ [e.receiver]
          | none => chain

/-- The start loop of `detect_shell_networks` (the `visited` set in the
source is never written to, so its membership test is always false and is
dropped here). -/
def shellLoop (adjacency : List (String × List OutEdge))
    (shells : List String) : List String → List ShellChain → List ShellChain
  | [], chains => chains
  | startNode :: rest, chains =>
      if 100 ≤ chains.length then chains
      else if shells.contains startNode then
        shellLoop adjacency shells rest chains
      else
        let chain := extendChain adjacency shells 12 [startNode] [startNode] startNode
        let intermediaries := (chain.drop 1).dropLast
        let shellIntermediaries := intermediaries.filter (fun a => shells.contains a)
        let chains1 :=
          if 4 ≤ chain.length ∧ 1 ≤ shellIntermediaries.length then
            chains ++ [{ chain := chain, shellAccounts := shellIntermediaries,
                         hopCount := chain.length - 1 }]
          else chains
        shellLoop adjacency shells rest chains1

/-- `detect_shell_networks`: `SHELL_TX_MIN = 2`, `SHELL_TX_MAX = 3`,
`MIN_CHAIN_LENGTH = 3`, `MAX_CHAINS = 100`. -/
def detectShellNetworks (adjacency : List (String × List OutEdge))
    (nodeStats : List (String × NodeStats)) : List ShellChain :=
  let potentialShells := (nodeStats.filter (fun p =>
    decide (2 ≤ p.2.txCount) && decide (p.2.txCount ≤ 3) &&
    decide (0 < p.2.inDeg) && decide (0 < p.2.outDeg))).map (fun p => p.1)
  shellLoop adjacency potentialShells (nodeStats.map (fun p => p.1)) []

/-! ## Legitimacy filter (`identify_legitimate_accounts`)

The source tests `sqrt(var) / avg < cv_bound` with `avg > 0`; squaring both
sides, this is `var < (cv_bound * avg)^2`, which keeps the computation in
`ℚ`. -/

/-- Population variance of a list of amounts around their mean. -/
def popVariance (amounts : List ℚ) (avg : ℚ) : ℚ :=
  (amounts.map (fun a => (a - avg) ^ 2)).sum / (amounts.length : ℚ)

/-- `identify_legitimate_accounts`, returning the legitimate set in
node-statistics iteration order. -/
def identifyLegitimateAccounts (nodeStats : List (String × NodeStats))
    (adjacency : List (String × List OutEdge))
    (reverseAdj : List (String × List InEdge)) : List String :=
  nodeStats.foldl
    (fun legit p =>
      let accountId := p.1
      let stats := p.2
      let legit1 :=
        if 20 ≤ stats.inDeg ∧ stats.outDeg ≤ 3 then
          let amounts := ((alookup reverseAdj accountId).getD []).map (fun t => t.amount)
          if amounts ≠ [] then
            let avg := amounts.sum / (amounts.length : ℚ)
            if 0 < avg then
              let var := popVariance amounts avg
              if var < (avg / 2) ^ 2 then insertOnce legit accountId else legit
            else legit
          else legit
        else legit
      if 20 ≤ stats.outDeg ∧ stats.inDeg ≤ 3 then
        let amounts := ((alookup adjacency accountId).getD []).map (fun t => t.amount)
        if amounts ≠ [] then
          let avg := amounts.sum / (amounts.length : ℚ)
          if 0 < avg then
            let var := popVariance amounts avg
            if var < (3 / 10 * avg) ^ 2 then insertOnce legit1 accountId else legit1
          else legit1
        else legit1
      else legit1)
    []

/-! ## Suspicion scoring and ring assembly (`calculate_suspicion_scores`) -/

/-- A ring record; the pattern-specific extras are optional fields. -/
structure Ring : Type where
  ring_id : String
  member_accounts : List String
  pattern_type : String
  risk_score : ℚ := 0
  cycle_length : Option ℕ := none
  temporal_score : Option ℚ := none
  hop_count : Option ℕ := none
deriving DecidableEq, Repr

/-- Zero-pad a numeral to width 3 (`f"RING_{n:03d}"`). -/
def pad3 (n : ℕ) : String :=
  let s := toString n
  if 3 ≤ s.length then s
  else String.mk (List.replicate (3 - s.length) '0') ++ s

/-- The ring id of the `n`-th ring (counter starting at 1). -/
def ringIdStr (n : ℕ) : String := "RING_" ++ pad3 n

/-- Mutable state of `calculate_suspicion_scores` while rings are being
assembled. -/
structure ScoreSt : Type where
  scores : List (String × ℚ) := []
  patterns : List (String × List String) := []
  ringMembership : List (String × String) := []
  ringCounter : ℕ := 0
  rings : List Ring := []
deriving DecidableEq, Repr

/-- `ring_membership[a] = ring_id if a not already assigned`, folded over a
list of members. -/
def assignMembers (membership : List (String × String)) (ringId : String) :
    List String → List (String × String)
  | [] => membership
  | a :: rest =>
      let membership1 :=
        if acontains membership a then membership else aset membership a ringId
      assignMembers membership1 ringId rest

/-- Step 1 of `calculate_suspicion_scores`: one cycle ring. -/
def applyCycle (st : ScoreSt) (cycle : List String) : ScoreSt :=
  let ringCounter := st.ringCounter + 1
  let ringId := ringIdStr ringCounter
  let scores := cycle.foldl (fun s a => aadd s a 30) st.scores
  let patterns := cycle.foldl
    (fun p a => atag p a ("cycle_length_" ++ toString cycle.length)) st.patterns
  let membership := assignMembers st.ringMembership ringId cycle
  { scores := scores, patterns := patterns, ringMembership := membership,
    ringCounter := ringCounter,
    rings := st.rings ++ [{ ring_id := ringId, member_accounts := cycle,
                            pattern_type := "cycle",
                            cycle_length := some cycle.length }] }

/-- Step 2 of `calculate_suspicion_scores`: one smurfing ring. -/
def applySmurf (st : ScoreSt) (pat : SmurfPattern) : ScoreSt :=
  let ringCounter := st.ringCounter + 1
  let ringId := ringIdStr ringCounter
  let scores := aadd st.scores pat.centerAccount 25
  let patterns := atag (atag st.patterns pat.centerAccount pat.type)
    pat.centerAccount "high_velocity"
  let scores := pat.connectedAccounts.foldl (fun s a => aadd s a 15) scores
  let patterns := pat.connectedAccounts.foldl
    (fun p a => atag p a ("smurfing_" ++ pat.type)) patterns
  let ringMembers := pat.centerAccount :: pat.connectedAccounts
  let membership := assignMembers st.ringMembership ringId ringMembers
  { scores := scores, patterns := patterns, ringMembership := membership,
    ringCounter := ringCounter,
    rings := st.rings ++ [{ ring_id := ringId, member_accounts := ringMembers,
                            pattern_type := pat.type,
                            temporal_score := some pat.temporalScore }] }

/-- Step 3 of `calculate_suspicion_scores`: one shell-network ring. -/
def applyShell (st : ScoreSt) (shell : ShellChain) : ScoreSt :=
  let ringCounter := st.ringCounter + 1
  let ringId := ringIdStr ringCounter
  let scores := shell.chain.foldl (fun s a => aadd s a 20) st.scores
  let patterns := shell.chain.foldl
    (fun p a =>
      let p1 := atag p a "shell_network"
      if shell.shellAccounts.contains a then atag p1 a "shell_intermediary"
      else p1)
    st.patterns
  let membership := assignMembers st.ringMembership ringId shell.chain
  { scores := scores, patterns := patterns, ringMembership := membership,
    ringCounter := ringCounter,
    rings := st.rings ++ [{ ring_id := ringId, member_accounts := shell.chain,
                            pattern_type := "shell_network",
                            hop_count := some shell.hopCount }] }

/-- The high-velocity condition of step 4 (`len(epochs) >= 5` and
`0 < avg_interval < 3600`). -/
def velocityCond (stats : NodeStats) : Bool :=
  if 5 ≤ stats.epochs.length then
    let sortedEpochs := List.insertionSort (fun a b => a ≤ b) stats.epochs
    let timeSpan := sortedEpochs.getLast?.getD 0 - sortedEpochs.head?.getD 0
    let avgInterval := timeSpan / ((sortedEpochs.length : ℚ) - 1)
    decide (0 < avgInterval) && decide (avgInterval < 3600)
  else false

/-- The degree-anomaly condition of step 4 (`in/out > 0` and
`max/min > 5`). -/
def degreeCond (stats : NodeStats) : Bool :=
  if 0 < stats.inDeg ∧ 0 < stats.outDeg then
    decide (5 < ((max stats.inDeg stats.outDeg : ℕ) : ℚ) /
      ((min stats.inDeg stats.outDeg : ℕ) : ℚ))
  else false

/-- The pass-through condition of step 4 (`total_in > 0`, `total_out > 0`,
`min/max > 0.85` strictly, `tx_count >= 4`). -/
def passCond (stats : NodeStats) : Bool :=
  if 0 < stats.totalIn ∧ 0 < stats.totalOut then
    decide (17 / 20 < min stats.totalIn stats.totalOut /
      max stats.totalIn stats.totalOut) && decide (4 ≤ stats.txCount)
  else false

/-- Step 4 of `calculate_suspicion_scores` for one account: the three
additional addends applied in source order. -/
def applyAdditional (sp : List (String × ℚ) × List (String × List String))
    (entry : String × NodeStats) :
    List (String × ℚ) × List (String × List String) :=
  let accountId := entry.1
  let stats := entry.2
  let sp1 :=
    if velocityCond stats then
      (aadd sp.1 accountId 10, atag sp.2 accountId "high_velocity")
    else sp
  let sp2 :=
    if degreeCond stats then
      (aadd sp1.1 accountId 10, atag sp1.2 accountId "degree_anomaly")
    else sp1
  if passCond stats then
    (aadd sp2.1 accountId 5, atag sp2.2 accountId "pass_through")
  else sp2

/-- Step 5 of `calculate_suspicion_scores` for one legitimate account:
halve (rounded) and tag. -/
def applyLegit (sp : List (String × ℚ) × List (String × List String))
    (accountId : String) :
    List (String × ℚ) × List (String × List String) :=
  if acontains sp.1 accountId then
    (aset sp.1 accountId (ratOfInt (pyRound (((alookup sp.1 accountId).getD 0) * (1/2)))),
     atag sp.2 accountId "likely_legitimate")
  else sp

/-- The final cap: `min(100, round(score * 10) / 10)`. -/
def capScore (s : ℚ) : ℚ := min 100 (ratOfInt (pyRound (s * 10)) / 10)

/-- The result record of `calculate_suspicion_scores`. -/
structure SuspicionResult : Type where
  scores : List (String × ℚ)
  patterns : List (String × List String)
  ringMembership : List (String × String)
  rings : List Ring
deriving DecidableEq, Repr

/-- The initialisation loop of `calculate_suspicion_scores`: score 0 and an
empty pattern set for every account of the node statistics. -/
def initialScoreSt (nodeStats : List (String × NodeStats)) : ScoreSt :=
  { scores := nodeStats.foldl (fun s p => aset s p.1 (0 : ℚ)) [],
    patterns := nodeStats.foldl (fun p q => aset p q.1 ([] : List String)) [] }

/-- Steps 1–3 of `calculate_suspicion_scores`: the three ring-assembling
folds in their fixed order (cycles, then smurfing, then shells). -/
def ringStagesSt (nodeStats : List (String × NodeStats))
    (cycles : List (List String)) (smurfingPatterns : List SmurfPattern)
    (shellChains : List ShellChain) : ScoreSt :=
  shellChains.foldl applyShell
    (smurfingPatterns.foldl applySmurf
      (cycles.foldl applyCycle (initialScoreSt nodeStats)))

/-- Steps 4–5 of `calculate_suspicion_scores` applied after the ring
stages: the per-account additional addends, then the legitimacy
discount. -/
def preCapSp (nodeStats : List (String × NodeStats))
    (cycles : List (List String)) (smurfingPatterns : List SmurfPattern)
    (shellChains : List ShellChain) (legitimateAccounts : List String) :
    List (String × ℚ) × List (String × List String) :=
  let st3 := ringStagesSt nodeStats cycles smurfingPatterns shellChains
  legitimateAccounts.foldl applyLegit
    (nodeStats.foldl applyAdditional (st3.scores, st3.patterns))

/-- The final capped scores map (`min(100, round(s*10)/10)` over the
pre-cap scores). -/
def finalScores (nodeStats : List (String × NodeStats))
    (cycles : List (List String)) (smurfingPatterns : List SmurfPattern)
    (shellChains : List ShellChain) (legitimateAccounts : List String) :
    List (String × ℚ) :=
  (preCapSp nodeStats cycles smurfingPatterns shellChains
    legitimateAccounts).1.map (fun p => (p.1, capScore p.2))

/-- The ring `risk_score` update: the mean of the members' final scores,
rounded to one decimal. -/
def ringWithRisk (scoresFinal : List (String × ℚ)) (ring : Ring) : Ring :=
  let memberScores := ring.member_accounts.map
    (fun a => (alookup scoresFinal a).getD 0)
  if memberScores.isEmpty then ring
  else
    { ring with risk_score :=
        ratOfInt (pyRound (memberScores.sum / (memberScores.length : ℚ) * 10)) / 10 }

/-- `calculate_suspicion_scores`. -/
def calculateSuspicionScores (nodeStats : List (String × NodeStats))
    (cycles : List (List String)) (smurfingPatterns : List SmurfPattern)
    (shellChains : List ShellChain) (legitimateAccounts : List String) :
    SuspicionResult :=
  let st3 := ringStagesSt nodeStats cycles smurfingPatterns shellChains
  let sp5 := preCapSp nodeStats cycles smurfingPatterns shellChains
    legitimateAccounts
  let scoresFinal := finalScores nodeStats cycles smurfingPatterns
    shellChains legitimateAccounts
  { scores := scoresFinal, patterns := sp5.2,
    ringMembership := st3.ringMembership,
    rings := st3.rings.map (ringWithRisk scoresFinal) }

/-! ## Report values and the graph projection
(`analyze_transactions`, `_build_graph_data_for_frontend`) -/

/-- One entry of `suspicious_accounts`. -/
structure SuspiciousAccount : Type where
  account_id : String
  suspicion_score : ℚ
  detected_patterns : List String
  ring_id : Option String
deriving DecidableEq, Repr

/-- The `summary` block (`processing_time_seconds` is wall-clock and is
modelled as 0). -/
structure Summary : Type where
  total_accounts_analyzed : ℕ
  total_transactions : ℕ
  suspicious_accounts_flagged : ℕ
  fraud_rings_detected : ℕ
  processing_time_seconds : ℚ := 0
deriving DecidableEq, Repr

/-- A projected node (the presentation field `sizeVal`, computed with
`math.log2`, is omitted; see the header comment). -/
structure CyNode : Type where
  id : String
  type : String
  score : ℚ
  inDeg : ℕ
  outDeg : ℕ
  totalIn : ℚ
  totalOut : ℚ
  txCount : ℕ
  ringId : Option String
  patterns : List String
deriving DecidableEq, Repr

/-- A projected edge (the presentation field `weight`, computed with
`math.log2`, is omitted; see the header comment). -/
structure CyEdge : Type where
  id : String
  source : String
  target : String
  totalAmount : ℚ
  txCount : ℕ
  suspicious : Bool
  suspicionScore : ℚ
deriving DecidableEq, Repr

/-- The `graph_data` block. -/
structure GraphData : Type where
  nodes : List CyNode
  edges : List CyEdge
  totalNodes : ℕ
  renderedNodes : ℕ
  isFiltered : Bool
deriving DecidableEq, Repr

/-- The report value of `analyze_transactions`. -/
structure Report : Type where
  suspicious_accounts : List SuspiciousAccount
  fraud_rings : List Ring
  summary : Summary
  graph_data : GraphData
deriving DecidableEq, Repr

/-- Aggregated edge data keyed by `"source->target"`. -/
structure EdgeAgg : Type where
  source : String
  target : String
  totalAmount : ℚ
  txCount : ℕ
deriving DecidableEq, Repr

/-- Priority 4 of the node-inclusion policy: for each account with score
≥ 50, admit up to 5 out-neighbors and 5 in-neighbors, stopping once
`MAX_NODES + 50 = 350` nodes are collected. -/
def addNeighbors (adjacency : List (String × List OutEdge))
    (reverseAdj : List (String × List InEdge)) :
    List SuspiciousAccount → List String → List String
  | [], ntr => ntr
  | acc :: rest, ntr =>
      if 350 ≤ ntr.length then ntr
      else
        let ntr1 := insertManyOnce ntr
          ((((alookup adjacency acc.account_id).getD []).take 5).map
            (fun e => e.receiver))
        let ntr2 := insertManyOnce ntr1
          ((((alookup reverseAdj acc.account_id).getD []).take 5).map
            (fun e => e.sender))
        addNeighbors adjacency reverseAdj rest ntr2

/-- The node set chosen for rendering (`nodes_to_render`), as a
first-insertion-ordered dedup list. -/
def nodesToRender (g : Graph) (suspiciousSet ringMemberSet : List String)
    (suspiciousAccounts : List SuspiciousAccount) : List String :=
  let totalCount := g.nodes.length
  if 300 < totalCount then
    let ntr := insertManyOnce (insertManyOnce [] ringMemberSet) suspiciousSet
    let ntr :=
      if ntr.length < 300 then
        let remainingSlots := 300 - ntr.length
        let otherNodes := (g.nodes.filter (fun n => ¬ ntr.contains n)).map
          (fun nid =>
            let s := (alookup g.nodeStats nid).getD {}
            (nid, s.inDeg + s.outDeg))
        let sortedOthers :=
          List.insertionSort (fun a b => (b : String × ℕ).2 ≤ a.2) otherNodes
        (sortedOthers.take remainingSlots).foldl (fun l p => insertOnce l p.1) ntr
      else ntr
    let highRisk := suspiciousAccounts.filter (fun a => decide (50 ≤ a.suspicion_score))
    addNeighbors g.adjacency g.reverseAdj highRisk ntr
  else g.nodes.foldl insertOnce []

/-- Aggregate edges between rendered nodes by `(source, target)` pair. -/
def aggregateEdges (g : Graph) (ntr : List String) : List (String × EdgeAgg) :=
  g.adjacency.foldl
    (fun em p =>
      if ¬ ntr.contains p.1 then em
      else
        p.2.foldl
          (fun em e =>
            if ¬ ntr.contains e.receiver then em
            else
              let key := p.1 ++ "->" ++ e.receiver
              let cur := (alookup em key).getD
                { source := p.1, target := e.receiver, totalAmount := 0,
                  txCount := 0 }
              aset em key
                { cur with totalAmount := cur.totalAmount + e.amount,
                           txCount := cur.txCount + 1 })
          em)
    []

/-- Whether an aggregated edge touches the suspicious or ring set (the
`is_sus` of the truncation sort key). -/
def edgeTouches (e : EdgeAgg) (suspiciousSet ringMemberSet : List String) : Bool :=
  suspiciousSet.contains e.source || suspiciousSet.contains e.target ||
  ringMemberSet.contains e.source || ringMemberSet.contains e.target

/-- `_build_graph_data_for_frontend`. -/
def buildGraphDataForFrontend (g : Graph) (scores : List (String × ℚ))
    (patterns : List (String × List String))
    (ringMembership : List (String × String))
    (suspiciousAccounts : List SuspiciousAccount) (fraudRings : List Ring) :
    GraphData :=
  let suspiciousSet := (suspiciousAccounts.map (fun a => a.account_id)).foldl
    insertOnce []
  let ringMemberSet := fraudRings.foldl
    (fun s ring => insertManyOnce s ring.member_accounts) []
  let totalCount := g.nodes.length
  let isLarge : Bool := decide (300 < totalCount)
  let ntr := nodesToRender g suspiciousSet ringMemberSet suspiciousAccounts
  let cyNodes := ntr.map (fun nid =>
    let stats := (alookup g.nodeStats nid).getD {}
    let score := (alookup scores nid).getD 0
    let nodeType :=
      if ringMemberSet.contains nid then "ring"
      else if suspiciousSet.contains nid then "suspicious"
      else "normal"
    ({ id := nid, type := nodeType, score := score,
       inDeg := stats.inDeg, outDeg := stats.outDeg,
       totalIn := pyRound2 stats.totalIn, totalOut := pyRound2 stats.totalOut,
       txCount := stats.txCount, ringId := alookup ringMembership nid,
       patterns := (alookup patterns nid).getD [] } : CyNode))
  let edgeItems := aggregateEdges g ntr
  let edgeItems :=
    if 2000 < edgeItems.length then
      (List.insertionSort
        (fun a b =>
          let sa := edgeTouches (a : String × EdgeAgg).2 suspiciousSet ringMemberSet
          let sb := edgeTouches (b : String × EdgeAgg).2 suspiciousSet ringMemberSet
          (sa ∧ ¬ sb) ∨ (sa = sb ∧ b.2.totalAmount ≤ a.2.totalAmount))
        edgeItems).take 2000
    else edgeItems
  let cyEdges := edgeItems.map (fun p =>
    let e := (p : String × EdgeAgg).2
    let isSuspicious :=
      (suspiciousSet.contains e.source && suspiciousSet.contains e.target) ||
      (ringMemberSet.contains e.source && ringMemberSet.contains e.target)
    let srcScore := (alookup scores e.source).getD 0
    let tgtScore := (alookup scores e.target).getD 0
    ({ id := p.1, source := e.source, target := e.target,
       totalAmount := pyRound2 e.totalAmount, txCount := e.txCount,
       suspicious := isSuspicious,
       suspicionScore := pyRound1 (max srcScore tgtScore) } : CyEdge))
  { nodes := cyNodes, edges := cyEdges, totalNodes := totalCount,
    renderedNodes := ntr.length, isFiltered := isLarge }

/-- The suspicion stage of the pipeline applied to a built graph
(steps 2–6 of `analyze_transactions`). -/
def suspicionOf (g : Graph) : SuspicionResult :=
  calculateSuspicionScores g.nodeStats
    (detectCycles g.adjacency g.nodes g.nodeStats)
    (detectSmurfing g.adjacency g.reverseAdj g.nodeStats)
    (detectShellNetworks g.adjacency g.nodeStats)
    (identifyLegitimateAccounts g.nodeStats g.adjacency g.reverseAdj)

/-- The `suspicious_accounts` list: accounts of strictly positive score,
sorted by score descending (stable). -/
def suspiciousList (result : SuspicionResult) : List SuspiciousAccount :=
  List.insertionSort (fun a b => b.suspicion_score ≤ a.suspicion_score)
    ((result.scores.filter (fun p => decide (0 < p.2))).map (fun p =>
      { account_id := p.1, suspicion_score := p.2,
        detected_patterns := (alookup result.patterns p.1).getD [],
        ring_id := alookup result.ringMembership p.1 }))

/-- `analyze_transactions` on a built graph (`nTx` is the submitted record
count, used only in the summary). -/
def analyzeGraph (g : Graph) (nTx : ℕ) : Report :=
  let result := suspicionOf g
  let suspiciousAccounts := suspiciousList result
  let fraudRings := List.insertionSort
    (fun a b => (b : Ring).risk_score ≤ a.risk_score) result.rings
  let graphData := buildGraphDataForFrontend g result.scores result.patterns
    result.ringMembership suspiciousAccounts fraudRings
  { suspicious_accounts := suspiciousAccounts,
    fraud_rings := fraudRings,
    summary := { total_accounts_analyzed := g.nodes.length,
                 total_transactions := nTx,
                 suspicious_accounts_flagged := suspiciousAccounts.length,
                 fraud_rings_detected := fraudRings.length },
    graph_data := graphData }

/-- `analyze_transactions` (`none` when `build_graph` raises on a
non-convertible amount). -/
def analyze (txs : List Tx) : Option Report :=
  (buildGraph txs).map (fun g => analyzeGraph g txs.length)

/-! ## Concrete inputs used by counterexamples and witnesses -/

/-- A record shorthand. -/
def mkTx (i s r : String) (a : ℚ) (t : String) : Tx :=
  { transaction_id := i, sender_id := s, receiver_id := r, amount := some a,
    timestamp := t }

/-- A record with a convertible but negative amount and a valid
timestamp. -/
def c1NegTx : Tx := mkTx "T1" "A" "B" (-5) "2024-01-01 10:00:00"

/-- A batch with one parseable record and one whose timestamp parses under
no format. -/
def c1WitnessTxs : List Tx :=
  [mkTx "T1" "A" "B" 10 "2024-01-01 10:00:00",
   mkTx "T2" "C" "D" 3 "yesterday at noon"]

/-- A triangle `B → C → A → B` plus an extra edge `B → D` that gives `B` the
strictly highest degree, so the bounded DFS discovers the cycle from `B`. -/
def c4txs : List Tx :=
  [mkTx "T1" "B" "C" 10 "2024-01-01 10:00:00",
   mkTx "T2" "C" "A" 10 "2024-01-01 10:10:00",
   mkTx "T3" "A" "B" 10 "2024-01-01 10:20:00",
   mkTx "T4" "B" "D" 10 "2024-01-01 10:30:00"]

/-- Five transactions `A → B` sharing one timestamp: `A` has `tx_count = 5`
and mean involvement interval 0. -/
def c7txs : List Tx :=
  [mkTx "T1" "A" "B" 10 "2024-01-01 10:00:00",
   mkTx "T2" "A" "B" 10 "2024-01-01 10:00:00",
   mkTx "T3" "A" "B" 10 "2024-01-01 10:00:00",
   mkTx "T4" "A" "B" 10 "2024-01-01 10:00:00",
   mkTx "T5" "A" "B" 10 "2024-01-01 10:00:00"]

/-- The graph built from `c7txs`. -/
def c7graph : Graph := (buildGraph c7txs).getD {}

/-- Account `M` with `total_in = 85`, `total_out = 100` (throughput ratio
exactly `0.85`) and `tx_count = 4`. -/
def c8txs : List Tx :=
  [mkTx "T1" "X1" "M" 40 "2024-01-01 10:00:00",
   mkTx "T2" "X2" "M" 45 "2024-01-01 11:00:00",
   mkTx "T3" "M" "Y1" 50 "2024-01-01 12:00:00",
   mkTx "T4" "M" "Y2" 50 "2024-01-01 13:00:00"]

/-- The graph built from `c8txs`. -/
def c8graph : Graph := (buildGraph c8txs).getD {}

/-- The mean interval between sorted involvement epochs
(`avg_interval` of step 4 of `calculate_suspicion_scores`). -/
def meanInterval (stats : NodeStats) : ℚ :=
  let sortedEpochs := List.insertionSort (fun a b => a ≤ b) stats.epochs
  (sortedEpochs.getLast?.getD 0 - sortedEpochs.head?.getD 0) /
    ((sortedEpochs.length : ℚ) - 1)

/-- Node statistics used as the witness for the high-velocity rule. -/
def c7WitnessStats : NodeStats :=
  { inDeg := 0, outDeg := 5, totalIn := 0, totalOut := 50, txCount := 5,
    epochs := [0, 600, 1200, 1800, 2400] }

/-- Node statistics used as the witness for the pass-through rule. -/
def c8WitnessStats : NodeStats :=
  { inDeg := 2, outDeg := 2, totalIn := 90, totalOut := 100, txCount := 4,
    epochs := [0, 600, 1200, 1800] }

/-- The report produced for the empty batch. -/
def emptyReport : Report :=
  { suspicious_accounts := [], fraud_rings := [],
    summary := { total_accounts_analyzed := 0, total_transactions := 0,
                 suspicious_accounts_flagged := 0, fraud_rings_detected := 0,
                 processing_time_seconds := 0 },
    graph_data := { nodes := [], edges := [], totalNodes := 0,
                    renderedNodes := 0, isFiltered := false } }

/-- The maximum, over all sliding windows of length `w`, of the number of
epoch values falling in the window.  Modelled from the spec wording: sort
ascending, slide a window of length `w`, take the maximum count; a window
anchored at each value `x` covers `[x - w, x]`. -/
def specMaxWindowCount (epochs : List ℚ) (w : ℚ) : ℕ :=
  (epochs.map (fun x =>
    epochs.countP (fun y => decide (x - w ≤ y) && decide (y ≤ x)))).foldr
    max 0

/-- The number of indices `j ≤ i` whose value in `s` is at most `w` behind
the value at `i` — the quantity `i - win_start + 1` maintained by the
sliding-window loop of `_compute_temporal_density` at anchor `i`. -/
def cntA (s : List ℚ) (w : ℚ) (i : ℕ) : ℕ :=
  (List.range (i + 1)).countP (fun j => decide (nthQ s i - nthQ s j ≤ w))

/-! ## Lemma library: association lists and set lists -/

/-- Keys of an association list. -/
def akeys {α : Type} (l : List (String × α)) : List String :=
  l.map (fun p => p.1)

theorem alookup_aset_self {α : Type} (l : List (String × α)) (k : String)
    (v : α) : alookup (aset l k v) k = some v := by
  induction l with
  | nil => simp [aset, alookup, List.find?]
  | cons p rest ih =>
      cases p with
      | mk kp vp =>
          cases hb : (kp == k) with
          | true => simp [aset, hb, alookup, List.find?]
          | false =>
              simp only [aset, hb, Bool.false_eq_true, if_false]
              simpa [alookup, List.find?, hb] using ih

theorem alookup_aset_ne {α : Type} (l : List (String × α)) (k k1 : String)
    (v : α) (hne : k1 ≠ k) : alookup (aset l k v) k1 = alookup l k1 := by
  have hkk1 : (k == k1) = false := by
    simp only [beq_eq_false_iff_ne, ne_eq]
    exact fun h => hne h.symm
  induction l with
  | nil => simp [aset, alookup, List.find?, hkk1]
  | cons p rest ih =>
      cases p with
      | mk kp vp =>
          cases hb : (kp == k) with
          | true =>
              have hk : kp = k := by simpa using hb
              simp [aset, hb, alookup, List.find?, hkk1, hk]
          | false =>
              simp only [aset, hb, Bool.false_eq_true, if_false]
              cases hb1 : (kp == k1) with
              | true => simp [alookup, List.find?, hb1]
              | false =>
                  simpa [alookup, List.find?, hb1] using ih

theorem mem_aset {α : Type} (l : List (String × α)) (k : String) (v : α)
    (p : String × α) (hp : p ∈ aset l k v) : p = (k, v) ∨ p ∈ l := by
  induction l with
  | nil => simpa [aset] using hp
  | cons q rest ih =>
      cases q with
      | mk kq vq =>
          cases hb : (kq == k) with
          | true =>
              simp only [aset, hb, if_true] at hp
              rcases List.mem_cons.1 hp with h1 | h1
              · exact Or.inl h1
              · exact Or.inr (List.mem_cons_of_mem _ h1)
          | false =>
              simp only [aset, hb, Bool.false_eq_true, if_false] at hp
              rcases List.mem_cons.1 hp with h1 | h1
              · exact Or.inr (by simp [h1])
              · rcases ih h1 with h2 | h2
                · exact Or.inl h2
                · exact Or.inr (List.mem_cons_of_mem _ h2)

theorem mem_of_alookup {α : Type} (l : List (String × α)) (k : String) (v : α)
    (h : alookup l k = some v) : (k, v) ∈ l := by
  induction l with
  | nil => simp [alookup] at h
  | cons q rest ih =>
      cases q with
      | mk kq vq =>
          cases hb : (kq == k) with
          | true =>
              have hk : kq = k := by simpa using hb
              have hv : vq = v := by
                simpa [alookup, List.find?, hb] using h
              rw [← hk, ← hv]
              exact List.mem_cons_self _ _
          | false =>
              simp only [alookup, List.find?, hb, Bool.false_eq_true,
                if_false] at h
              exact List.mem_cons_of_mem _ (ih h)

theorem akeys_aset {α : Type} (l : List (String × α)) (k : String) (v : α) :
    akeys (aset l k v) = if acontains l k then akeys l else akeys l ++ [k] := by
  induction l with
  | nil => simp [aset, akeys, acontains]
  | cons q rest ih =>
      cases q with
      | mk kq vq =>
          cases hb : (kq == k) with
          | true =>
              have hk : kq = k := by simpa using hb
              simp [aset, hb, akeys, acontains, hk]
          | false =>
              simp only [aset, hb, Bool.false_eq_true, if_false]
              simp only [akeys, acontains, List.any_cons, hb, Bool.false_or,
                List.map_cons] at ih ⊢
              rw [ih]
              by_cases h2 : rest.any (fun p => p.1 == k) = true
              · simp [h2]
              · simp only [eq_false_of_ne_true h2, if_false]
                simp

theorem akeys_nodup_aset {α : Type} (l : List (String × α)) (k : String)
    (v : α) (h : (akeys l).Nodup) : (akeys (aset l k v)).Nodup := by
  rw [akeys_aset]
  by_cases hc : acontains l k = true
  · rw [if_pos hc]; exact h
  · rw [if_neg hc]
    have hk : k ∉ akeys l := by
      intro hmem
      apply hc
      simp only [akeys, List.mem_map] at hmem
      obtain ⟨p, hp, hpk⟩ := hmem
      simp only [acontains]
      exact List.any_eq_true.2 ⟨p, hp, by simp [hpk]⟩
    simpa [List.nodup_append] using ⟨h, hk⟩

theorem alookup_of_mem_nodup {α : Type} (l : List (String × α)) (k : String)
    (v : α) (hmem : (k, v) ∈ l) (hnd : (akeys l).Nodup) :
    alookup l k = some v := by
  induction l with
  | nil => simp at hmem
  | cons q rest ih =>
      cases q with
      | mk kq vq =>
          simp only [akeys, List.map_cons, List.nodup_cons] at hnd
          rcases List.mem_cons.1 hmem with h1 | h1
          · have hk : kq = k := by
              have := congrArg Prod.fst h1
              simpa using this.symm
            have hv : vq = v := by
              have := congrArg Prod.snd h1
              simpa using this.symm
            simp [alookup, List.find?, hk, hv]
          · have hkne : (kq == k) = false := by
              simp only [beq_eq_false_iff_ne, ne_eq]
              intro he
              apply hnd.1
              have : k ∈ List.map (fun p => p.1) rest := by
                simp only [List.mem_map]
                exact ⟨(k, v), h1, rfl⟩
              rw [he]
              exact this
            simp only [alookup, List.find?, hkne, Bool.false_eq_true, if_false]
            exact ih h1 hnd.2

theorem mem_akeys_of_alookup {α : Type} (l : List (String × α)) (k : String)
    (v : α) (h : alookup l k = some v) : k ∈ akeys l := by
  have := mem_of_alookup l k v h
  simp only [akeys, List.mem_map]
  exact ⟨(k, v), this, rfl⟩

theorem alookup_isSome_of_acontains {α : Type} (l : List (String × α))
    (k : String) (h : acontains l k = true) : (alookup l k).isSome := by
  induction l with
  | nil => simp [acontains] at h
  | cons q rest ih =>
      cases hb : (q.1 == k) with
      | true => simp [alookup, List.find?, hb]
      | false =>
          simp only [acontains, List.any_cons, hb, Bool.false_or] at h
          simpa [alookup, List.find?, hb] using ih h

theorem acontains_of_alookup {α : Type} (l : List (String × α))
    (k : String) (v : α) (h : alookup l k = some v) : acontains l k = true := by
  have := mem_of_alookup l k v h
  simp only [acontains, List.any_eq_true]
  exact ⟨(k, v), this, by simp⟩

/-! Lemmas about `insertOnce` (set-as-dedup-list). -/

theorem mem_insertOnce (l : List String) (x y : String) :
    y ∈ insertOnce l x ↔ y ∈ l ∨ y = x := by
  simp only [insertOnce]
  by_cases h : l.contains x
  · rw [if_pos h]
    constructor
    · exact Or.inl
    · rintro (h1 | rfl)
      · exact h1
      · exact List.elem_iff.1 h
  · rw [if_neg h]
    simp [List.mem_append]

theorem nodup_insertOnce (l : List String) (x : String) (h : l.Nodup) :
    (insertOnce l x).Nodup := by
  simp only [insertOnce]
  by_cases hc : l.contains x
  · rw [if_pos hc]; exact h
  · rw [if_neg hc]
    have : x ∉ l := fun hm => hc (List.elem_iff.2 hm)
    simpa [List.nodup_append] using ⟨h, this⟩

theorem mem_insertManyOnce (l xs : List String) (y : String) :
    y ∈ insertManyOnce l xs ↔ y ∈ l ∨ y ∈ xs := by
  induction xs generalizing l with
  | nil => simp [insertManyOnce]
  | cons x rest ih =>
      simp only [insertManyOnce, List.foldl_cons] at ih ⊢
      rw [ih (insertOnce l x), mem_insertOnce]
      simp only [List.mem_cons]
      tauto

theorem nodup_insertManyOnce (l xs : List String) (h : l.Nodup) :
    (insertManyOnce l xs).Nodup := by
  induction xs generalizing l with
  | nil => simpa [insertManyOnce] using h
  | cons x rest ih =>
      simp only [insertManyOnce, List.foldl_cons] at ih ⊢
      exact ih _ (nodup_insertOnce _ _ h)

/-- A generic invariant-preservation lemma for `List.foldl`. -/
theorem foldl_invariant {α β : Type} (P : β → Prop) (f : β → α → β)
    (l : List α) (st : β) (hstep : ∀ st a, a ∈ l → P st → P (f st a))
    (hst : P st) : P (l.foldl f st) := by
  induction l generalizing st with
  | nil => simpa using hst
  | cons a rest ih =>
      simp only [List.foldl_cons]
      exact ih _ (fun st2 b hb => hstep st2 b (List.mem_cons_of_mem _ hb))
        (hstep st a (List.mem_cons_self a rest) hst)

/-! ## Lemmas about `build_graph` -/

theorem buildGraphAux_filter (l : List Tx) (g : Graph)
    (h : ∀ tx ∈ l, (tx.amount).isSome) :
    buildGraphAux g l =
      buildGraphAux g (l.filter (fun tx => (parseTimestamp tx.timestamp).isSome)) := by
  induction l generalizing g with
  | nil => simp
  | cons tx rest ih =>
      have htx := h tx (List.mem_cons_self tx rest)
      obtain ⟨amt, hamt⟩ := Option.isSome_iff_exists.1 htx
      have hrest : ∀ tx2 ∈ rest, (tx2.amount).isSome :=
        fun tx2 h2 => h tx2 (List.mem_cons_of_mem _ h2)
      cases hts : parseTimestamp tx.timestamp with
      | none =>
          have hfil : (tx :: rest).filter
              (fun tx2 => (parseTimestamp tx2.timestamp).isSome) =
              rest.filter (fun tx2 => (parseTimestamp tx2.timestamp).isSome) := by
            simp [List.filter_cons, hts]
          rw [hfil]
          simp only [buildGraphAux, hamt, hts]
          exact ih g hrest
      | some epoch =>
          have hfil : (tx :: rest).filter
              (fun tx2 => (parseTimestamp tx2.timestamp).isSome) =
              tx :: rest.filter (fun tx2 => (parseTimestamp tx2.timestamp).isSome) := by
            simp [List.filter_cons, hts]
          rw [hfil]
          simp only [buildGraphAux, hamt, hts]
          exact ih _ hrest

theorem buildGraphAux_isSome (l : List Tx) (g : Graph)
    (h : ∀ tx ∈ l, (tx.amount).isSome) :
    ∃ g2, buildGraphAux g l = some g2 := by
  induction l generalizing g with
  | nil => exact ⟨g, rfl⟩
  | cons tx rest ih =>
      have htx := h tx (List.mem_cons_self tx rest)
      obtain ⟨amt, hamt⟩ := Option.isSome_iff_exists.1 htx
      have hrest : ∀ tx2 ∈ rest, (tx2.amount).isSome :=
        fun tx2 h2 => h tx2 (List.mem_cons_of_mem _ h2)
      cases hts : parseTimestamp tx.timestamp with
      | none =>
          simp only [buildGraphAux, hamt, hts]
          exact ih g hrest
      | some epoch =>
          simp only [buildGraphAux, hamt, hts]
          exact ih _ hrest

theorem insertTx_nodes_mono (g : Graph) (tx : Tx) (amt epoch : ℚ)
    (a : String) (h : a ∈ g.nodes) : a ∈ (insertTx g tx amt epoch).nodes := by
  simp only [insertTx]
  rw [mem_insertOnce, mem_insertOnce]
  exact Or.inl (Or.inl h)

theorem insertTx_adj_mono (g : Graph) (tx : Tx) (amt epoch : ℚ) (s : String)
    (e : OutEdge) (h : e ∈ (alookup g.adjacency s).getD []) :
    e ∈ (alookup (insertTx g tx amt epoch).adjacency s).getD [] := by
  simp only [insertTx]
  by_cases hs : s = tx.sender_id
  · subst hs
    rw [alookup_aset_self]
    simp only [Option.getD_some]
    exact List.mem_append_left _ h
  · rw [alookup_aset_ne _ _ _ _ hs]
    exact h

theorem buildGraphAux_nodes_mono (l : List Tx) (g g2 : Graph) (a : String)
    (ha : a ∈ g.nodes) (h : buildGraphAux g l = some g2) : a ∈ g2.nodes := by
  induction l generalizing g with
  | nil =>
      simp only [buildGraphAux, Option.some.injEq] at h
      rw [← h]; exact ha
  | cons tx rest ih =>
      simp only [buildGraphAux] at h
      cases hamt : tx.amount with
      | none => rw [hamt] at h; exact absurd h (by simp)
      | some amt =>
          rw [hamt] at h
          cases hts : parseTimestamp tx.timestamp with
          | none => rw [hts] at h; exact ih g ha h
          | some epoch =>
              rw [hts] at h
              exact ih _ (insertTx_nodes_mono g tx amt epoch a ha) h

theorem buildGraphAux_adj_mono (l : List Tx) (g g2 : Graph) (s : String)
    (e : OutEdge) (he : e ∈ (alookup g.adjacency s).getD [])
    (h : buildGraphAux g l = some g2) :
    e ∈ (alookup g2.adjacency s).getD [] := by
  induction l generalizing g with
  | nil =>
      simp only [buildGraphAux, Option.some.injEq] at h
      rw [← h]; exact he
  | cons tx rest ih =>
      simp only [buildGraphAux] at h
      cases hamt : tx.amount with
      | none => rw [hamt] at h; exact absurd h (by simp)
      | some amt =>
          rw [hamt] at h
          cases hts : parseTimestamp tx.timestamp with
          | none => rw [hts] at h; exact ih g he h
          | some epoch =>
              rw [hts] at h
              exact ih _ (insertTx_adj_mono g tx amt epoch s e he) h

theorem insertTx_inserts (g : Graph) (tx : Tx) (amt epoch : ℚ) :
    tx.sender_id ∈ (insertTx g tx amt epoch).nodes ∧
    tx.receiver_id ∈ (insertTx g tx amt epoch).nodes ∧
    ({ receiver := tx.receiver_id, amount := amt, epoch := epoch,
       txId := tx.transaction_id } : OutEdge) ∈
      (alookup (insertTx g tx amt epoch).adjacency tx.sender_id).getD [] := by
  refine ⟨?_, ?_, ?_⟩
  · simp only [insertTx]
    rw [mem_insertOnce, mem_insertOnce]
    exact Or.inl (Or.inr rfl)
  · simp only [insertTx]
    rw [mem_insertOnce]
    exact Or.inr rfl
  · simp only [insertTx]
    rw [alookup_aset_self]
    simp only [Option.getD_some]
    exact List.mem_append_right _ (List.mem_singleton.2 rfl)

theorem buildGraphAux_inserts (l : List Tx) (g : Graph)
    (h : ∀ tx2 ∈ l, (tx2.amount).isSome) (tx : Tx) (htx : tx ∈ l)
    (amt epoch : ℚ) (hamt : tx.amount = some amt)
    (hts : parseTimestamp tx.timestamp = some epoch) :
    ∃ g2, buildGraphAux g l = some g2 ∧ tx.sender_id ∈ g2.nodes ∧
      tx.receiver_id ∈ g2.nodes ∧
      ({ receiver := tx.receiver_id, amount := amt, epoch := epoch,
         txId := tx.transaction_id } : OutEdge) ∈
        (alookup g2.adjacency tx.sender_id).getD [] := by
  induction l generalizing g with
  | nil => simp at htx
  | cons tx1 rest ih =>
      have hrest : ∀ tx2 ∈ rest, (tx2.amount).isSome :=
        fun tx2 h2 => h tx2 (List.mem_cons_of_mem _ h2)
      rcases List.mem_cons.1 htx with heq | hmem
      · subst heq
        simp only [buildGraphAux, hamt, hts]
        obtain ⟨g2, hg2⟩ := buildGraphAux_isSome rest (insertTx g tx amt epoch) hrest
        obtain ⟨h1, h2, h3⟩ := insertTx_inserts g tx amt epoch
        exact ⟨g2, hg2, buildGraphAux_nodes_mono _ _ _ _ h1 hg2,
          buildGraphAux_nodes_mono _ _ _ _ h2 hg2,
          buildGraphAux_adj_mono _ _ _ _ _ h3 hg2⟩
      · have htx1 := h tx1 (List.mem_cons_self tx1 rest)
        obtain ⟨amt1, hamt1⟩ := Option.isSome_iff_exists.1 htx1
        cases hts1 : parseTimestamp tx1.timestamp with
        | none =>
            simp only [buildGraphAux, hamt1, hts1]
            exact ih g hrest hmem
        | some epoch1 =>
            simp only [buildGraphAux, hamt1, hts1]
            exact ih _ hrest hmem

/-! ## Lemmas about `pyRound` and score values -/

theorem ratOfInt_eq_cast (z : ℤ) : ratOfInt z = ((z : ℤ) : ℚ) := by
  apply Rat.ext <;> simp [ratOfInt]

theorem pyRound_intCast (z : ℤ) : pyRound ((z : ℤ) : ℚ) = z := by
  simp only [pyRound, Int.floor_intCast, ratOfInt_eq_cast]
  norm_num

theorem pyRound_natCast (n : ℕ) : pyRound ((n : ℕ) : ℚ) = (n : ℤ) := by
  have : ((n : ℕ) : ℚ) = (((n : ℤ) : ℤ) : ℚ) := by push_cast; ring
  rw [this, pyRound_intCast]

theorem pyRound_nonneg (q : ℚ) (h : 0 ≤ q) : 0 ≤ pyRound q := by
  simp only [pyRound]
  have hf : 0 ≤ ⌊q⌋ := Int.floor_nonneg.2 h
  split_ifs <;> omega

/-- All values of a score map are naturals (the raw accumulated scores). -/
def natScores (l : List (String × ℚ)) : Prop :=
  ∀ p ∈ l, ∃ n : ℕ, p.2 = (n : ℚ)

theorem natScores_aset (l : List (String × ℚ)) (k : String) (v : ℚ)
    (hv : ∃ n : ℕ, v = (n : ℚ)) (h : natScores l) : natScores (aset l k v) := by
  intro p hp
  rcases mem_aset l k v p hp with h1 | h1
  · rw [h1]; exact hv
  · exact h p h1

theorem natScores_lookup (l : List (String × ℚ)) (k : String)
    (h : natScores l) : ∃ n : ℕ, (alookup l k).getD 0 = (n : ℚ) := by
  cases hl : alookup l k with
  | none => exact ⟨0, by simp⟩
  | some v =>
      have := h (k, v) (mem_of_alookup l k v hl)
      simpa using this

theorem natScores_aadd (l : List (String × ℚ)) (k : String) (m : ℕ)
    (h : natScores l) : natScores (aadd l k ((m : ℕ) : ℚ)) := by
  obtain ⟨n, hn⟩ := natScores_lookup l k h
  apply natScores_aset
  · exact ⟨n + m, by rw [hn]; push_cast; ring⟩
  · exact h

theorem capScore_natCast (n : ℕ) :
    capScore ((n : ℕ) : ℚ) = ((min 100 n : ℕ) : ℚ) := by
  simp only [capScore]
  have h1 : ((n : ℕ) : ℚ) * 10 = (((10 * n : ℕ) : ℕ) : ℚ) := by
    push_cast; ring
  rw [h1, pyRound_natCast, ratOfInt_eq_cast]
  have h2 : (((10 * n : ℕ) : ℤ) : ℚ) / 10 = (n : ℚ) := by
    push_cast; ring
  rw [h2, Nat.cast_min]
  norm_num

theorem natScores_aadd_of (l : List (String × ℚ)) (k : String) (x : ℚ)
    (hx : ∃ m : ℕ, x = (m : ℚ)) (h : natScores l) : natScores (aadd l k x) := by
  obtain ⟨m, rfl⟩ := hx
  exact natScores_aadd l k m h

theorem natScores_initial (nodeStats : List (String × NodeStats)) :
    natScores (initialScoreSt nodeStats).scores := by
  show natScores (nodeStats.foldl (fun s p => aset s p.1 (0 : ℚ)) [])
  apply foldl_invariant natScores
  · intro st a _ hst
    exact natScores_aset _ _ _ ⟨0, by norm_num⟩ hst
  · intro p hp
    simp at hp

theorem natScores_applyCycle (st : ScoreSt) (c : List String)
    (h : natScores st.scores) : natScores (applyCycle st c).scores := by
  show natScores (c.foldl (fun s a => aadd s a 30) st.scores)
  apply foldl_invariant natScores
  · intro s a _ hs
    exact natScores_aadd_of s a 30 ⟨30, by norm_num⟩ hs
  · exact h

theorem natScores_applySmurf (st : ScoreSt) (pat : SmurfPattern)
    (h : natScores st.scores) : natScores (applySmurf st pat).scores := by
  show natScores (pat.connectedAccounts.foldl (fun s a => aadd s a 15)
    (aadd st.scores pat.centerAccount 25))
  apply foldl_invariant natScores
  · intro s a _ hs
    exact natScores_aadd_of s a 15 ⟨15, by norm_num⟩ hs
  · exact natScores_aadd_of _ _ 25 ⟨25, by norm_num⟩ h

theorem natScores_applyShell (st : ScoreSt) (shell : ShellChain)
    (h : natScores st.scores) : natScores (applyShell st shell).scores := by
  show natScores (shell.chain.foldl (fun s a => aadd s a 20) st.scores)
  apply foldl_invariant natScores
  · intro s a _ hs
    exact natScores_aadd_of s a 20 ⟨20, by norm_num⟩ hs
  · exact h

theorem natScores_applyAdditional
    (sp : List (String × ℚ) × List (String × List String))
    (entry : String × NodeStats) (h : natScores sp.1) :
    natScores (applyAdditional sp entry).1 := by
  simp only [applyAdditional]
  by_cases hv : velocityCond entry.2 <;>
    by_cases hd : degreeCond entry.2 <;>
    by_cases hp : passCond entry.2 <;>
    simp only [hv, hd, hp, if_true, if_false, Bool.false_eq_true]
  · exact natScores_aadd_of _ _ _ ⟨5, by norm_num⟩
      (natScores_aadd_of _ _ _ ⟨10, by norm_num⟩
        (natScores_aadd_of _ _ _ ⟨10, by norm_num⟩ h))
  · exact natScores_aadd_of _ _ _ ⟨10, by norm_num⟩
      (natScores_aadd_of _ _ _ ⟨10, by norm_num⟩ h)
  · exact natScores_aadd_of _ _ _ ⟨5, by norm_num⟩
      (natScores_aadd_of _ _ _ ⟨10, by norm_num⟩ h)
  · exact natScores_aadd_of _ _ _ ⟨10, by norm_num⟩ h
  · exact natScores_aadd_of _ _ _ ⟨5, by norm_num⟩
      (natScores_aadd_of _ _ _ ⟨10, by norm_num⟩ h)
  · exact natScores_aadd_of _ _ _ ⟨10, by norm_num⟩ h
  · exact natScores_aadd_of _ _ _ ⟨5, by norm_num⟩ h
  · exact h

theorem natScores_applyLegit
    (sp : List (String × ℚ) × List (String × List String))
    (accountId : String) (h : natScores sp.1) :
    natScores (applyLegit sp accountId).1 := by
  simp only [applyLegit]
  split_ifs with h1
  · simp only
    obtain ⟨n, hn⟩ := natScores_lookup sp.1 accountId h
    apply natScores_aset _ _ _ _ h
    have hnn : (0 : ℚ) ≤ (alookup sp.1 accountId).getD 0 * (1 / 2) := by
      rw [hn]; positivity
    have hz := pyRound_nonneg _ hnn
    refine ⟨(pyRound ((alookup sp.1 accountId).getD 0 * (1 / 2))).toNat, ?_⟩
    rw [ratOfInt_eq_cast]
    exact_mod_cast (congrArg (fun z : ℤ => (z : ℚ))
      (Int.toNat_of_nonneg hz)).symm
  · exact h

theorem natScores_preCap (nodeStats : List (String × NodeStats))
    (cycles : List (List String)) (smurfs : List SmurfPattern)
    (shells : List ShellChain) (legit : List String) :
    natScores (preCapSp nodeStats cycles smurfs shells legit).1 := by
  have h0 := natScores_initial nodeStats
  have h1 : natScores (cycles.foldl applyCycle (initialScoreSt nodeStats)).scores :=
    foldl_invariant (fun st => natScores st.scores) _ _ _
      (fun st c _ hst => natScores_applyCycle st c hst) h0
  have h2 : natScores ((smurfs.foldl applySmurf
      (cycles.foldl applyCycle (initialScoreSt nodeStats)))).scores :=
    foldl_invariant (fun st => natScores st.scores) _ _ _
      (fun st c _ hst => natScores_applySmurf st c hst) h1
  have h3 : natScores (ringStagesSt nodeStats cycles smurfs shells).scores :=
    foldl_invariant (fun st => natScores st.scores) _ _ _
      (fun st c _ hst => natScores_applyShell st c hst) h2
  have h4 : natScores ((nodeStats.foldl applyAdditional
      ((ringStagesSt nodeStats cycles smurfs shells).scores,
       (ringStagesSt nodeStats cycles smurfs shells).patterns))).1 :=
    foldl_invariant (fun sp => natScores sp.1) _ _ _
      (fun sp e _ hsp => natScores_applyAdditional sp e hsp) h3
  exact foldl_invariant (fun sp => natScores sp.1) _ _ _
    (fun sp a _ hsp => natScores_applyLegit sp a hsp) h4

theorem akeys_nodup_aadd (l : List (String × ℚ)) (k : String) (x : ℚ)
    (h : (akeys l).Nodup) : (akeys (aadd l k x)).Nodup :=
  akeys_nodup_aset _ _ _ h

theorem akeys_map_snd {α β : Type} (l : List (String × α))
    (f : String × α → β) :
    akeys (l.map (fun p => (p.1, f p))) = akeys l := by
  simp [akeys, List.map_map]

theorem akeysNodup_preCap (nodeStats : List (String × NodeStats))
    (cycles : List (List String)) (smurfs : List SmurfPattern)
    (shells : List ShellChain) (legit : List String) :
    (akeys (preCapSp nodeStats cycles smurfs shells legit).1).Nodup := by
  have h0 : (akeys (initialScoreSt nodeStats).scores).Nodup := by
    show (akeys (nodeStats.foldl (fun s p => aset s p.1 (0 : ℚ)) [])).Nodup
    apply foldl_invariant (fun l => (akeys l).Nodup)
    · intro st p _ hst
      exact akeys_nodup_aset _ _ _ hst
    · simp [akeys]
  have h1 : (akeys ((cycles.foldl applyCycle (initialScoreSt nodeStats))).scores).Nodup := by
    apply foldl_invariant (fun st : ScoreSt => (akeys st.scores).Nodup) _ _ _ _ h0
    intro st c _ hst
    show (akeys (c.foldl (fun s a => aadd s a 30) st.scores)).Nodup
    apply foldl_invariant (fun l => (akeys l).Nodup) _ _ _ _ hst
    intro l a _ hl
    exact akeys_nodup_aadd _ _ _ hl
  have h2 : (akeys ((smurfs.foldl applySmurf
      (cycles.foldl applyCycle (initialScoreSt nodeStats)))).scores).Nodup := by
    apply foldl_invariant (fun st : ScoreSt => (akeys st.scores).Nodup) _ _ _ _ h1
    intro st pat _ hst
    show (akeys (pat.connectedAccounts.foldl (fun s a => aadd s a 15)
      (aadd st.scores pat.centerAccount 25))).Nodup
    apply foldl_invariant (fun l => (akeys l).Nodup)
    · intro l a _ hl
      exact akeys_nodup_aadd _ _ _ hl
    · exact akeys_nodup_aadd _ _ _ hst
  have h3 : (akeys (ringStagesSt nodeStats cycles smurfs shells).scores).Nodup := by
    apply foldl_invariant (fun st : ScoreSt => (akeys st.scores).Nodup) _ _ _ _ h2
    intro st sh _ hst
    show (akeys (sh.chain.foldl (fun s a => aadd s a 20) st.scores)).Nodup
    apply foldl_invariant (fun l => (akeys l).Nodup) _ _ _ _ hst
    intro l a _ hl
    exact akeys_nodup_aadd _ _ _ hl
  have h4 : (akeys ((nodeStats.foldl applyAdditional
      ((ringStagesSt nodeStats cycles smurfs shells).scores,
       (ringStagesSt nodeStats cycles smurfs shells).patterns))).1).Nodup := by
    apply foldl_invariant
      (fun sp : List (String × ℚ) × List (String × List String) =>
        (akeys sp.1).Nodup) _ _ _ _ h3
    intro sp e _ hsp
    simp only [applyAdditional]
    by_cases hv : velocityCond e.2 <;>
      by_cases hd : degreeCond e.2 <;>
      by_cases hp : passCond e.2 <;>
      simp only [hv, hd, hp, if_true, if_false, Bool.false_eq_true] <;>
      (repeat' apply akeys_nodup_aadd) <;>
      exact hsp
  apply foldl_invariant
    (fun sp : List (String × ℚ) × List (String × List String) =>
      (akeys sp.1).Nodup) _ _ _ _ h4
  intro sp a _ hsp
  simp only [applyLegit]
  split_ifs with h1
  · exact akeys_nodup_aset _ _ _ hsp
  · exact hsp

theorem akeysNodup_scores (nodeStats : List (String × NodeStats))
    (cycles : List (List String)) (smurfs : List SmurfPattern)
    (shells : List ShellChain) (legit : List String) :
    (akeys (calculateSuspicionScores nodeStats cycles smurfs shells
      legit).scores).Nodup := by
  have h : (calculateSuspicionScores nodeStats cycles smurfs shells
      legit).scores = (preCapSp nodeStats cycles smurfs shells legit).1.map
      (fun p => (p.1, capScore p.2)) := rfl
  rw [h, akeys_map_snd]
  exact akeysNodup_preCap nodeStats cycles smurfs shells legit

/-! ## Lemmas about ring assembly -/

theorem alookup_none_of_not_acontains {α : Type} (l : List (String × α))
    (k : String) (h : acontains l k = false) : alookup l k = none := by
  cases hl : alookup l k with
  | none => rfl
  | some v =>
      have := acontains_of_alookup l k v hl
      rw [h] at this
      exact absurd this (by simp)

theorem alookup_assignMembers (m : List (String × String)) (rid : String)
    (ms : List String) (a : String) :
    alookup (assignMembers m rid ms) a =
      (alookup m a).or (if ms.contains a then some rid else none) := by
  induction ms generalizing m with
  | nil =>
      show alookup m a = (alookup m a).or _
      cases alookup m a <;> rfl
  | cons b rest ih =>
      simp only [assignMembers]
      rw [ih]
      by_cases hab : b = a
      · subst hab
        have hbc : ((b :: rest).contains b) = true := by simp
        rw [hbc]
        by_cases hc : acontains m b = true
        · rw [if_pos hc]
          obtain ⟨v, hv⟩ := Option.isSome_iff_exists.1
            (alookup_isSome_of_acontains m b hc)
          rw [hv]
          cases hr : rest.contains b <;> simp
        · have hcf : acontains m b = false := by
            revert hc
            cases acontains m b <;> simp
          rw [if_neg hc, alookup_aset_self,
            alookup_none_of_not_acontains m b hcf]
          cases hr : rest.contains b <;> simp
      · have h2 : alookup (if acontains m b = true then m
            else aset m b rid) a = alookup m a := by
          split_ifs with h1
          · rfl
          · rw [alookup_aset_ne _ _ _ _ (fun h => hab h.symm)]
        rw [h2]
        have h3 : (b :: rest).contains a = rest.contains a := by
          simp only [List.contains_cons]
          have hne : (a == b) = false := by
            simp only [beq_eq_false_iff_ne, ne_eq]
            exact fun h => hab h.symm
          rw [hne]
          simp
        rw [h3]

theorem option_map_or {α β : Type} (x y : Option α) (f : α → β) :
    (x.or y).map f = (x.map f).or (y.map f) := by
  cases x <;> simp

/-- The combined ring-assembly invariant: the counter tracks the ring
count, the ids are `RING_001 …` in order, and the membership map is
first-ring-wins. -/
def RingInv (st : ScoreSt) : Prop :=
  st.ringCounter = st.rings.length ∧
  st.rings.map (fun r => r.ring_id) =
    (List.range st.rings.length).map (fun i => ringIdStr (i + 1)) ∧
  ∀ a, alookup st.ringMembership a =
    (st.rings.find? (fun r => r.member_accounts.contains a)).map
      (fun r => r.ring_id)

theorem RingInv_extend (st : ScoreSt) (scores2 : List (String × ℚ))
    (patterns2 : List (String × List String)) (ring : Ring)
    (h : RingInv st) (hid : ring.ring_id = ringIdStr (st.ringCounter + 1)) :
    RingInv
      { scores := scores2, patterns := patterns2,
        ringMembership :=
          (assignMembers st.ringMembership ring.ring_id ring.member_accounts),
        ringCounter := st.ringCounter + 1, rings := st.rings ++ [ring] } := by
  obtain ⟨hc, hids, hmem⟩ := h
  refine ⟨by simp [hc], ?_, ?_⟩
  · show (st.rings ++ [ring]).map (fun r => r.ring_id) =
      (List.range (st.rings ++ [ring]).length).map (fun i => ringIdStr (i + 1))
    rw [List.map_append, List.length_append]
    simp only [List.length_singleton]
    rw [List.range_succ, List.map_append]
    rw [hids]
    congr 1
    simp [hid, hc]
  · intro a
    show alookup (assignMembers st.ringMembership ring.ring_id
      ring.member_accounts) a = _
    rw [alookup_assignMembers, hmem a, List.find?_append, option_map_or]
    congr 1
    simp only [List.find?_singleton]
    by_cases hin : ring.member_accounts.contains a
    · rw [if_pos hin, if_pos hin]
      simp
    · rw [if_neg hin, if_neg hin]
      simp

theorem RingInv_applyCycle (st : ScoreSt) (c : List String)
    (h : RingInv st) : RingInv (applyCycle st c) :=
  RingInv_extend st
    (c.foldl (fun s a => aadd s a 30) st.scores)
    (c.foldl (fun p a => atag p a ("cycle_length_" ++ toString c.length))
      st.patterns)
    { ring_id := ringIdStr (st.ringCounter + 1), member_accounts := c,
      pattern_type := "cycle", cycle_length := some c.length } h rfl

theorem RingInv_applySmurf (st : ScoreSt) (pat : SmurfPattern)
    (h : RingInv st) : RingInv (applySmurf st pat) :=
  RingInv_extend st
    (pat.connectedAccounts.foldl (fun s a => aadd s a 15)
      (aadd st.scores pat.centerAccount 25))
    (pat.connectedAccounts.foldl
      (fun p a => atag p a ("smurfing_" ++ pat.type))
      (atag (atag st.patterns pat.centerAccount pat.type)
        pat.centerAccount "high_velocity"))
    { ring_id := ringIdStr (st.ringCounter + 1),
      member_accounts := pat.centerAccount :: pat.connectedAccounts,
      pattern_type := pat.type, temporal_score := some pat.temporalScore }
    h rfl

theorem RingInv_applyShell (st : ScoreSt) (shell : ShellChain)
    (h : RingInv st) : RingInv (applyShell st shell) :=
  RingInv_extend st
    (shell.chain.foldl (fun s a => aadd s a 20) st.scores)
    (shell.chain.foldl
      (fun p a =>
        let p1 := atag p a "shell_network"
        if shell.shellAccounts.contains a then atag p1 a "shell_intermediary"
        else p1)
      st.patterns)
    { ring_id := ringIdStr (st.ringCounter + 1),
      member_accounts := shell.chain, pattern_type := "shell_network",
      hop_count := some shell.hopCount } h rfl

theorem RingInv_ringStages (nodeStats : List (String × NodeStats))
    (cycles : List (List String)) (smurfs : List SmurfPattern)
    (shells : List ShellChain) :
    RingInv (ringStagesSt nodeStats cycles smurfs shells) := by
  have h0 : RingInv (initialScoreSt nodeStats) := by
    refine ⟨rfl, rfl, ?_⟩
    intro a
    simp [initialScoreSt, alookup]
  have h1 := foldl_invariant RingInv applyCycle cycles _
    (fun st c _ hst => RingInv_applyCycle st c hst) h0
  have h2 := foldl_invariant RingInv applySmurf smurfs _
    (fun st c _ hst => RingInv_applySmurf st c hst) h1
  exact foldl_invariant RingInv applyShell shells _
    (fun st c _ hst => RingInv_applyShell st c hst) h2

/-! ## Lemmas about cycle deduplication -/

/-- The dedup invariant of `_dfs`: the normalized keys of the emitted
cycles are pairwise distinct, and all of them are recorded in `seen`. -/
def DfsInv (st : DfsSt) : Prop :=
  (st.cycles.map cycleKey).Nodup ∧ ∀ c ∈ st.cycles, cycleKey c ∈ st.seen

theorem DfsInv_emit (st : DfsSt) (path1 : List String)
    (hseen : st.seen.contains (cycleKey path1) = false) (h : DfsInv st) :
    DfsInv { cycles := st.cycles ++ [path1],
             seen := st.seen ++ [cycleKey path1] } := by
  obtain ⟨hnd, hsub⟩ := h
  have hkey : cycleKey path1 ∉ st.seen := by
    intro hm
    have hc : st.seen.contains (cycleKey path1) = true := List.elem_iff.2 hm
    rw [hseen] at hc
    exact absurd hc (by simp)
  constructor
  · show ((st.cycles ++ [path1]).map cycleKey).Nodup
    rw [List.map_append]
    simp only [List.map_singleton]
    rw [List.nodup_append]
    refine ⟨hnd, List.nodup_singleton _, ?_⟩
    intro x hx
    simp only [List.mem_singleton]
    obtain ⟨c, hc, hck⟩ := List.mem_map.1 hx
    intro he
    apply hkey
    rw [← he, ← hck]
    exact hsub c hc
  · intro c hc
    rcases List.mem_append.1 hc with h1 | h1
    · exact List.mem_append_left _ (hsub c h1)
    · rw [List.mem_singleton.1 h1]
      exact List.mem_append_right _ (List.mem_singleton.2 rfl)

theorem dfs_inv (adjacency : List (String × List OutEdge))
    (validNodes : List String) (fuel : ℕ) :
    ∀ (cur start : String) (depth : ℕ) (visited path : List String)
      (st : DfsSt), DfsInv st →
      DfsInv (dfs adjacency validNodes fuel cur start depth visited path st) := by
  induction fuel with
  | zero => intro cur start depth visited path st h; exact h
  | succ fuel ih =>
      intro cur start depth visited path st h
      simp only [dfs]
      by_cases hstop : 5 < depth ∨ MAX_CYCLES ≤ st.cycles.length
      · rw [if_pos hstop]; exact h
      · rw [if_neg hstop]
        apply foldl_invariant DfsInv _ _ _ _ h
        intro st2 e _ hst2
        beta_reduce
        by_cases h1 : ¬ validNodes.contains e.receiver = true
        · rw [if_pos h1]; exact hst2
        · rw [if_neg h1]
          by_cases h2 : (e.receiver == start) = true ∧ 2 ≤ depth
          · rw [if_pos h2]
            by_cases h3 : 3 ≤ (path ++ [cur]).length ∧ (path ++ [cur]).length ≤ 5
            · rw [if_pos h3]
              cases h4 : st2.seen.contains (cycleKey (path ++ [cur])) with
              | true => simpa using hst2
              | false => simpa using DfsInv_emit st2 _ h4 hst2
            · rw [if_neg h3]; exact hst2
          · rw [if_neg h2]
            by_cases h5 : ¬ (insertOnce visited cur).contains e.receiver = true ∧
                depth < 4
            · rw [if_pos h5]; exact ih _ _ _ _ _ _ hst2
            · rw [if_neg h5]; exact hst2

theorem cyclesLoop_inv (adjacency : List (String × List OutEdge))
    (validNodes : List String) (starts : List String) (st : DfsSt)
    (h : DfsInv st) : DfsInv (cyclesLoop adjacency validNodes starts st) := by
  induction starts generalizing st with
  | nil => exact h
  | cons s rest ih =>
      simp only [cyclesLoop]
      split_ifs with h1
      · exact h
      · exact ih _ (dfs_inv adjacency validNodes 6 s s 0 [] [] st h)

/-! ## Lemmas about step 4 of the scorer -/

theorem alookup_aadd_self (l : List (String × ℚ)) (k : String) (x : ℚ) :
    alookup (aadd l k x) k = some (((alookup l k).getD 0) + x) :=
  alookup_aset_self _ _ _

theorem getD_aadd_self (l : List (String × ℚ)) (k : String) (x : ℚ) :
    (alookup (aadd l k x) k).getD 0 = ((alookup l k).getD 0) + x := by
  rw [alookup_aadd_self]
  rfl

theorem mem_atag_self (l : List (String × List String)) (k t : String) :
    t ∈ (alookup (atag l k t) k).getD [] := by
  simp only [atag]
  rw [alookup_aset_self]
  simp only [Option.getD_some]
  split_ifs with h
  · exact List.elem_iff.1 h
  · exact List.mem_append_right _ (List.mem_singleton.2 rfl)

theorem mem_atag_mono (l : List (String × List String)) (k t t2 : String)
    (h : t ∈ (alookup l k).getD []) :
    t ∈ (alookup (atag l k t2) k).getD [] := by
  simp only [atag]
  rw [alookup_aset_self]
  simp only [Option.getD_some]
  split_ifs with h2
  · exact h
  · exact List.mem_append_left _ h

theorem mem_atag_iff_ne (l : List (String × List String)) (k t t2 : String)
    (hne : t ≠ t2) :
    t ∈ (alookup (atag l k t2) k).getD [] ↔ t ∈ (alookup l k).getD [] := by
  simp only [atag]
  rw [alookup_aset_self]
  simp only [Option.getD_some]
  split_ifs with h2
  · exact Iff.rfl
  · constructor
    · intro hm
      rcases List.mem_append.1 hm with h1 | h1
      · exact h1
      · exact absurd (List.mem_singleton.1 h1) hne
    · exact fun hm => List.mem_append_left _ hm

/-- `passCond` spelled out: both throughputs positive, ratio strictly
above 0.85, at least four transactions. -/
theorem passCond_iff (stats : NodeStats) :
    passCond stats = true ↔
      (0 < stats.totalIn ∧ 0 < stats.totalOut ∧
       17 / 20 < min stats.totalIn stats.totalOut /
         max stats.totalIn stats.totalOut ∧ 4 ≤ stats.txCount) := by
  simp only [passCond]
  split_ifs with h
  · simp only [Bool.and_eq_true, decide_eq_true_eq]
    constructor
    · rintro ⟨h1, h2⟩
      exact ⟨h.1, h.2, h1, h2⟩
    · rintro ⟨_, _, h1, h2⟩
      exact ⟨h1, h2⟩
  · constructor
    · intro hfalse
      exact absurd hfalse (by simp)
    · rintro ⟨h1, h2, _, _⟩
      exact absurd ⟨h1, h2⟩ h

/-! ## Claim theorems -/

unseal Rat.add Rat.sub Rat.mul Rat.inv Rat.ofScientific in
/-- C2: an account appears in the `suspicious_accounts` list of the report
iff its final suspicion score is strictly greater than zero. -/
theorem claim_C2 (g : Graph) (nTx : ℕ) (a : String) :
    a ∈ (analyzeGraph g nTx).suspicious_accounts.map (fun e => e.account_id) ↔
    ∃ s, alookup (suspicionOf g).scores a = some s ∧ 0 < s := by
  have hnd : (akeys (suspicionOf g).scores).Nodup := akeysNodup_scores _ _ _ _ _
  have hsusp : (analyzeGraph g nTx).suspicious_accounts =
      suspiciousList (suspicionOf g) := rfl
  rw [hsusp]
  constructor
  · intro ha
    obtain ⟨e, he, hea⟩ := List.mem_map.1 ha
    simp only [suspiciousList] at he
    rw [List.mem_insertionSort] at he
    obtain ⟨q, hq, hqe⟩ := List.mem_map.1 he
    have hq1 := List.mem_of_mem_filter hq
    have hq2 : (0 : ℚ) < q.2 := by
      have := List.of_mem_filter hq
      exact of_decide_eq_true this
    have hqa : q.1 = a := by
      rw [← hea, ← hqe]
    refine ⟨q.2, ?_, hq2⟩
    rw [← hqa]
    exact alookup_of_mem_nodup _ _ _ hq1 hnd
  · rintro ⟨s, hs, hspos⟩
    have hmem := mem_of_alookup _ _ _ hs
    have hfil : (a, s) ∈ (suspicionOf g).scores.filter
        (fun p => decide (0 < p.2)) :=
      List.mem_filter.2 ⟨hmem, decide_eq_true hspos⟩
    apply List.mem_map.2
    simp only [suspiciousList]
    exact ⟨_, (List.mem_insertionSort _).2 (List.mem_map_of_mem _ hfil), rfl⟩

/-- C3: every final suspicion score — `min(100, round(raw*10)/10)` of the
raw accumulated score — lies in `[0, 100]` and has at most one decimal
place (ten times it is an integer), both in the scores map of
`calculate_suspicion_scores` and in every reported
`suspicious_accounts` entry. -/
theorem claim_C3 (nodeStats : List (String × NodeStats))
    (cycles : List (List String)) (smurfs : List SmurfPattern)
    (shells : List ShellChain) (legit : List String) :
    (∀ p ∈ (calculateSuspicionScores nodeStats cycles smurfs shells legit).scores,
       0 ≤ p.2 ∧ p.2 ≤ 100 ∧ ∃ k : ℤ, p.2 * 10 = (k : ℚ)) ∧
    (∀ e ∈ suspiciousList (calculateSuspicionScores nodeStats cycles smurfs shells legit),
       0 ≤ e.suspicion_score ∧ e.suspicion_score ≤ 100 ∧
       ∃ k : ℤ, e.suspicion_score * 10 = (k : ℚ)) := by
  have hpre := natScores_preCap nodeStats cycles smurfs shells legit
  have hmain : ∀ p ∈ (calculateSuspicionScores nodeStats cycles smurfs shells
      legit).scores, 0 ≤ p.2 ∧ p.2 ≤ 100 ∧ ∃ k : ℤ, p.2 * 10 = (k : ℚ) := by
    intro p hp
    have hp2 : p ∈ (preCapSp nodeStats cycles smurfs shells legit).1.map
        (fun q => (q.1, capScore q.2)) := hp
    obtain ⟨q, hq, hpq⟩ := List.mem_map.1 hp2
    obtain ⟨n, hn⟩ := hpre q hq
    have hcap : p.2 = ((min 100 n : ℕ) : ℚ) := by
      rw [← hpq]
      show capScore q.2 = ((min 100 n : ℕ) : ℚ)
      rw [hn, capScore_natCast]
    refine ⟨?_, ?_, ?_⟩
    · rw [hcap]; positivity
    · rw [hcap]
      exact_mod_cast Nat.cast_le.2 (min_le_left 100 n)
    · exact ⟨(min 100 n : ℕ) * 10, by rw [hcap]; push_cast; ring⟩
  refine ⟨hmain, ?_⟩
  intro e he
  simp only [suspiciousList] at he
  rw [List.mem_insertionSort] at he
  obtain ⟨q, hq, hpq⟩ := List.mem_map.1 he
  have hq2 := List.mem_of_mem_filter hq
  have hb := hmain q hq2
  rw [← hpq]
  exact hb

unseal Rat.add Rat.sub Rat.mul Rat.inv Rat.ofScientific in
/-- Witness for C3 on a one-account batch with no findings: the entry
`("A", 0)` is in the scores map and satisfies the bounds. -/
theorem claim_C3_witness :
    (0 : ℚ) ≤ (("A", (0 : ℚ)) : String × ℚ).2 ∧
    (("A", (0 : ℚ)) : String × ℚ).2 ≤ 100 ∧
    ∃ k : ℤ, (("A", (0 : ℚ)) : String × ℚ).2 * 10 = (k : ℚ) :=
  (claim_C3 [("A", {})] [] [] [] []).1 ("A", (0 : ℚ))
    (by decide)

unseal Rat.add Rat.sub Rat.mul Rat.inv Rat.ofScientific in
/-- C4 counterexample: on `c4txs`, the cycle detector returns the cycle
`["B", "C", "A"]` (discovered from the highest-degree start `B`), which
does not start at its lexicographically smallest member `A`: `_dfs` stores
the raw discovery path and uses the normalized rotation only as the dedup
key.  This refutes the claim that every returned cycle is in normalized
rotation. -/
theorem claim_C4_counterexample :
    (buildGraph c4txs).map
      (fun g => detectCycles g.adjacency g.nodes g.nodeStats) =
      some [["B", "C", "A"]] ∧
    normalizeCycle ["B", "C", "A"] ≠ ["B", "C", "A"] := by
  decide

/-- C4 (amended): returned cycles are in discovery rotation, not
necessarily normalized; but the normalized `"a->b->c"` strings of the
returned cycles are pairwise distinct — no two returned cycles are
rotations of the same node sequence. -/
theorem claim_C4_amended (adjacency : List (String × List OutEdge))
    (nodeList : List String) (nodeStats : List (String × NodeStats)) :
    ((detectCycles adjacency nodeList nodeStats).map cycleKey).Nodup :=
  (cyclesLoop_inv _ _ _ {} ⟨List.nodup_nil, fun c hc => absurd hc
    (List.not_mem_nil c)⟩).1

unseal Rat.add Rat.sub Rat.mul Rat.inv Rat.ofScientific in
/-- C7 counterexample: account `A` of `c7txs` has `tx_count = 5 ≥ 5` and
mean involvement interval 0 (< 3600 s), yet the scorer adds nothing and
sets no `high_velocity` tag, because the code requires the mean interval to
be *strictly positive* (`0 < avg_interval < 3600`). -/
theorem claim_C7_counterexample :
    buildGraph c7txs = some c7graph ∧
    5 ≤ ((alookup c7graph.nodeStats "A").getD {}).txCount ∧
    meanInterval ((alookup c7graph.nodeStats "A").getD {}) < 3600 ∧
    alookup (suspicionOf c7graph).scores "A" = some 0 ∧
    "high_velocity" ∉ (alookup (suspicionOf c7graph).patterns "A").getD [] := by
  decide

/-- C7 (amended): for every account whose `tx_count ≥ 5` (equivalently,
whose involvement-epoch count is ≥ 5) and whose mean interval between
involvement epochs is strictly between 0 and 3600 s, step 4 of the scorer
adds +10 to its raw score — independently of the degree-anomaly and
pass-through addends — and adds the `high_velocity` tag. -/
theorem claim_C7_amended
    (sp : List (String × ℚ) × List (String × List String)) (a : String)
    (stats : NodeStats) (hlen : stats.epochs.length = stats.txCount)
    (htc : 5 ≤ stats.txCount) (h0 : 0 < meanInterval stats)
    (h1 : meanInterval stats < 3600) :
    alookup (applyAdditional sp (a, stats)).1 a =
      some ((alookup sp.1 a).getD 0 + 10 +
        (if degreeCond stats = true then 10 else 0) +
        (if passCond stats = true then 5 else 0)) ∧
    "high_velocity" ∈ (alookup (applyAdditional sp (a, stats)).2 a).getD [] := by
  have hv : velocityCond stats = true := by
    simp only [velocityCond, meanInterval] at h0 h1 ⊢
    rw [if_pos (show 5 ≤ stats.epochs.length by omega)]
    simp only [Bool.and_eq_true, decide_eq_true_eq]
    exact ⟨h0, h1⟩
  simp only [applyAdditional]
  by_cases hd : degreeCond stats = true
  · by_cases hp : passCond stats = true
    · simp only [hv, hd, hp, if_true]
      refine ⟨?_, ?_⟩
      · rw [alookup_aadd_self, getD_aadd_self, getD_aadd_self]
      · exact mem_atag_mono _ _ _ _ (mem_atag_mono _ _ _ _
          (mem_atag_self _ _ _))
    · simp only [hv, hd, hp, if_true, if_false, Bool.false_eq_true]
      refine ⟨?_, ?_⟩
      · rw [alookup_aadd_self, getD_aadd_self]
        rw [add_zero]
      · exact mem_atag_mono _ _ _ _ (mem_atag_self _ _ _)
  · by_cases hp : passCond stats = true
    · simp only [hv, hd, hp, if_true, if_false, Bool.false_eq_true]
      refine ⟨?_, ?_⟩
      · rw [alookup_aadd_self, getD_aadd_self]
        rw [add_zero]
      · exact mem_atag_mono _ _ _ _ (mem_atag_self _ _ _)
    · simp only [hv, hd, hp, if_true, if_false, Bool.false_eq_true]
      refine ⟨?_, ?_⟩
      · rw [alookup_aadd_self]
        rw [add_zero, add_zero]
      · exact mem_atag_self _ _ _

unseal Rat.add Rat.sub Rat.mul Rat.inv Rat.ofScientific in
/-- Witness for C7 (amended) on concrete statistics with five evenly spaced
epochs (mean interval 600 s): the score gains exactly +10 and the tag is
present. -/
theorem claim_C7_amended_witness :
    alookup (applyAdditional ([], []) ("W", c7WitnessStats)).1 "W" =
      some ((alookup ([] : List (String × ℚ)) "W").getD 0 + 10 +
        (if degreeCond c7WitnessStats = true then 10 else 0) +
        (if passCond c7WitnessStats = true then 5 else 0)) ∧
    "high_velocity" ∈
      (alookup (applyAdditional ([], []) ("W", c7WitnessStats)).2 "W").getD [] :=
  claim_C7_amended ([], []) "W" c7WitnessStats (by decide)
    (by decide) (by decide)
    (by decide)

unseal Rat.add Rat.sub Rat.mul Rat.inv Rat.ofScientific in
/-- C8 counterexample: account `M` of `c8txs` has `total_in = 85 > 0`,
`total_out = 100 > 0`, throughput ratio exactly `0.85` (so the claimed
condition `min/max >= 0.85` holds) and `tx_count = 4 >= 4`, yet the scorer
adds nothing and sets no `pass_through` tag, because the code requires the
ratio to be *strictly* greater than `0.85`. -/
theorem claim_C8_counterexample :
    buildGraph c8txs = some c8graph ∧
    0 < ((alookup c8graph.nodeStats "M").getD {}).totalIn ∧
    0 < ((alookup c8graph.nodeStats "M").getD {}).totalOut ∧
    17 / 20 ≤ min ((alookup c8graph.nodeStats "M").getD {}).totalIn
        ((alookup c8graph.nodeStats "M").getD {}).totalOut /
      max ((alookup c8graph.nodeStats "M").getD {}).totalIn
        ((alookup c8graph.nodeStats "M").getD {}).totalOut ∧
    4 ≤ ((alookup c8graph.nodeStats "M").getD {}).txCount ∧
    alookup (suspicionOf c8graph).scores "M" = some 0 ∧
    "pass_through" ∉ (alookup (suspicionOf c8graph).patterns "M").getD [] := by
  decide

/-- C8 (amended): step 4 of the scorer adds the pass-through addend of +5
and the `pass_through` tag exactly when `total_in > 0`, `total_out > 0`, the
throughput ratio `min/max` is *strictly* greater than `0.85`, and
`tx_count >= 4`; an account failing any of these conditions (in particular
one whose ratio is exactly `0.85`) receives neither the addend nor the
tag. -/
theorem claim_C8_amended
    (sp : List (String × ℚ) × List (String × List String)) (a : String)
    (stats : NodeStats)
    (hnp : "pass_through" ∉ (alookup sp.2 a).getD []) :
    (alookup (applyAdditional sp (a, stats)).1 a).getD 0 =
      (alookup sp.1 a).getD 0 +
        (if velocityCond stats = true then 10 else 0) +
        (if degreeCond stats = true then 10 else 0) +
        (if 0 < stats.totalIn ∧ 0 < stats.totalOut ∧
            17 / 20 < min stats.totalIn stats.totalOut /
              max stats.totalIn stats.totalOut ∧ 4 ≤ stats.txCount
          then 5 else 0) ∧
    ("pass_through" ∈ (alookup (applyAdditional sp (a, stats)).2 a).getD [] ↔
      (0 < stats.totalIn ∧ 0 < stats.totalOut ∧
       17 / 20 < min stats.totalIn stats.totalOut /
         max stats.totalIn stats.totalOut ∧ 4 ≤ stats.txCount)) := by
  have hps := passCond_iff stats
  by_cases hp : passCond stats = true
  · have hC := hps.1 hp
    rw [if_pos hC]
    simp only [applyAdditional, hp, if_true]
    by_cases hv : velocityCond stats = true
    · by_cases hd : degreeCond stats = true
      · simp only [hv, hd, if_true]
        refine ⟨?_, iff_of_true (mem_atag_self _ _ _) hC⟩
        rw [getD_aadd_self, getD_aadd_self, getD_aadd_self]
      · simp only [hv, hd, if_true, if_false, Bool.false_eq_true]
        refine ⟨?_, iff_of_true (mem_atag_self _ _ _) hC⟩
        rw [getD_aadd_self, getD_aadd_self]
        rw [add_zero]
    · by_cases hd : degreeCond stats = true
      · simp only [hv, hd, if_true, if_false, Bool.false_eq_true]
        refine ⟨?_, iff_of_true (mem_atag_self _ _ _) hC⟩
        rw [getD_aadd_self, getD_aadd_self]
        rw [add_zero]
      · simp only [hv, hd, if_true, if_false, Bool.false_eq_true]
        refine ⟨?_, iff_of_true (mem_atag_self _ _ _) hC⟩
        rw [getD_aadd_self]
        rw [add_zero, add_zero]
  · have hC : ¬(0 < stats.totalIn ∧ 0 < stats.totalOut ∧
        17 / 20 < min stats.totalIn stats.totalOut /
          max stats.totalIn stats.totalOut ∧ 4 ≤ stats.txCount) :=
      fun c => hp (hps.2 c)
    rw [if_neg hC]
    simp only [applyAdditional, hp, if_false, Bool.false_eq_true]
    by_cases hv : velocityCond stats = true
    · by_cases hd : degreeCond stats = true
      · simp only [hv, hd, if_true]
        refine ⟨?_, iff_of_false (fun hm => hnp
          ((mem_atag_iff_ne _ _ _ _ (by decide)).1
            ((mem_atag_iff_ne _ _ _ _ (by decide)).1 hm))) hC⟩
        rw [getD_aadd_self, getD_aadd_self]
        rw [add_zero]
      · simp only [hv, hd, if_true, if_false, Bool.false_eq_true]
        refine ⟨?_, iff_of_false (fun hm => hnp
          ((mem_atag_iff_ne _ _ _ _ (by decide)).1 hm)) hC⟩
        rw [getD_aadd_self]
        rw [add_zero, add_zero]
    · by_cases hd : degreeCond stats = true
      · simp only [hv, hd, if_true, if_false, Bool.false_eq_true]
        refine ⟨?_, iff_of_false (fun hm => hnp
          ((mem_atag_iff_ne _ _ _ _ (by decide)).1 hm)) hC⟩
        rw [getD_aadd_self]
        rw [add_zero, add_zero]
      · simp only [hv, hd, if_true, if_false, Bool.false_eq_true]
        refine ⟨?_, iff_of_false (fun hm => hnp hm) hC⟩
        rw [add_zero, add_zero, add_zero]

unseal Rat.add Rat.sub Rat.mul Rat.inv Rat.ofScientific in
/-- Witness for C8 (amended) at concrete statistics with throughput ratio
`90/100 = 0.9 > 0.85` and four transactions: the pass-through addend and
tag are granted. -/
theorem claim_C8_amended_witness :
    (alookup (applyAdditional ([], []) ("W", c8WitnessStats)).1 "W").getD 0 =
      (alookup ([] : List (String × ℚ)) "W").getD 0 +
        (if velocityCond c8WitnessStats = true then 10 else 0) +
        (if degreeCond c8WitnessStats = true then 10 else 0) +
        (if 0 < c8WitnessStats.totalIn ∧ 0 < c8WitnessStats.totalOut ∧
            17 / 20 < min c8WitnessStats.totalIn c8WitnessStats.totalOut /
              max c8WitnessStats.totalIn c8WitnessStats.totalOut ∧
            4 ≤ c8WitnessStats.txCount
          then 5 else 0) ∧
    ("pass_through" ∈
        (alookup (applyAdditional ([], []) ("W", c8WitnessStats)).2 "W").getD []
      ↔ (0 < c8WitnessStats.totalIn ∧ 0 < c8WitnessStats.totalOut ∧
         17 / 20 < min c8WitnessStats.totalIn c8WitnessStats.totalOut /
           max c8WitnessStats.totalIn c8WitnessStats.totalOut ∧
         4 ≤ c8WitnessStats.txCount)) :=
  claim_C8_amended ([], []) "W" c8WitnessStats (by decide)

/-- C5: ring ids are assigned strictly sequentially as `RING_NNN`
(zero-padded to width 3, counter starting at 1) in the fixed order cycles,
then smurfing patterns, then shell chains; and for every account `a`,
`ring_membership[a]` is the id of the first ring in construction order that
contained `a`, with no later assignment overwriting it. -/
theorem claim_C5 (nodeStats : List (String × NodeStats))
    (cycles : List (List String)) (smurfs : List SmurfPattern)
    (shells : List ShellChain) (legit : List String) :
    (calculateSuspicionScores nodeStats cycles smurfs shells legit).rings.map
        (fun r => r.ring_id) =
      (List.range (calculateSuspicionScores nodeStats cycles smurfs shells
        legit).rings.length).map (fun i => ringIdStr (i + 1)) ∧
    ∀ a, alookup (calculateSuspicionScores nodeStats cycles smurfs shells
        legit).ringMembership a =
      ((calculateSuspicionScores nodeStats cycles smurfs shells
        legit).rings.find? (fun r => r.member_accounts.contains a)).map
        (fun r => r.ring_id) := by
  obtain ⟨hc, hids, hmem⟩ := RingInv_ringStages nodeStats cycles smurfs shells
  have hfid : ∀ r : Ring,
      (ringWithRisk (finalScores nodeStats cycles smurfs shells legit) r).ring_id
        = r.ring_id := by
    intro r
    simp only [ringWithRisk]
    split <;> rfl
  have hfmem : ∀ r : Ring,
      (ringWithRisk (finalScores nodeStats cycles smurfs shells legit)
        r).member_accounts = r.member_accounts := by
    intro r
    simp only [ringWithRisk]
    split <;> rfl
  constructor
  · show ((ringStagesSt nodeStats cycles smurfs shells).rings.map
        (ringWithRisk (finalScores nodeStats cycles smurfs shells
          legit))).map (fun r => r.ring_id) = _
    rw [List.map_map]
    have hcomp : ((fun r : Ring => r.ring_id) ∘
        (ringWithRisk (finalScores nodeStats cycles smurfs shells legit))) =
        (fun r : Ring => r.ring_id) := funext fun r => hfid r
    rw [hcomp]
    have hlen : (calculateSuspicionScores nodeStats cycles smurfs shells
        legit).rings.length =
        (ringStagesSt nodeStats cycles smurfs shells).rings.length := by
      show ((ringStagesSt nodeStats cycles smurfs shells).rings.map _).length = _
      rw [List.length_map]
    rw [hlen]
    exact hids
  · intro a
    show alookup (ringStagesSt nodeStats cycles smurfs shells).ringMembership a
      = (((ringStagesSt nodeStats cycles smurfs shells).rings.map
          (ringWithRisk (finalScores nodeStats cycles smurfs shells
            legit))).find? (fun r => r.member_accounts.contains a)).map
          (fun r => r.ring_id)
    rw [List.find?_map, Option.map_map]
    have hpred : ((fun r : Ring => r.member_accounts.contains a) ∘
        (ringWithRisk (finalScores nodeStats cycles smurfs shells legit))) =
        (fun r : Ring => r.member_accounts.contains a) :=
      funext fun r => by rw [Function.comp_apply, hfmem r]
    have hrid : ((fun r : Ring => r.ring_id) ∘
        (ringWithRisk (finalScores nodeStats cycles smurfs shells legit))) =
        (fun r : Ring => r.ring_id) := funext fun r => hfid r
    rw [hpred, hrid]
    exact hmem a

/-- C10: on the empty transaction list, `analyze_transactions` returns a
well-formed report: empty `suspicious_accounts`, `fraud_rings` and
`graph_data` nodes/edges, all four summary counts 0, and
`is_filtered = false`. -/
theorem claim_C10 : analyze [] = some emptyReport := rfl

unseal Rat.add Rat.sub Rat.mul Rat.inv Rat.ofScientific in
/-- C1 counterexample: a record whose amount converts to the negative float
`-5` — hence is not a finite real ≥ 0 — and whose timestamp parses, is NOT
skipped: `build_graph` inserts its endpoints and its edge.  This refutes the
claim that such records contribute no nodes and no edges. -/
theorem claim_C1_counterexample :
    c1NegTx.amount = some (-5) ∧
    (buildGraph [c1NegTx]).isSome ∧
    "A" ∈ ((buildGraph [c1NegTx]).getD {}).nodes ∧
    "B" ∈ ((buildGraph [c1NegTx]).getD {}).nodes ∧
    (alookup ((buildGraph [c1NegTx]).getD {}).adjacency "A").getD [] ≠ [] := by
  decide

/-- C1 (amended): when every amount field converts (`float` does not raise),
a record is skipped exactly when its timestamp parses under none of the six
formats — the graph equals the graph of the timestamp-parseable sublist —
and every record whose timestamp parses is inserted (endpoints among the
nodes, edge recorded under its sender); the amount value is not validated.
-/
theorem claim_C1_amended (l : List Tx) (h : ∀ tx ∈ l, (tx.amount).isSome) :
    buildGraph l =
      buildGraph (l.filter (fun tx => (parseTimestamp tx.timestamp).isSome)) ∧
    ∀ tx ∈ l, ∀ amt epoch, tx.amount = some amt →
      parseTimestamp tx.timestamp = some epoch →
      ∃ g, buildGraph l = some g ∧ tx.sender_id ∈ g.nodes ∧
        tx.receiver_id ∈ g.nodes ∧
        ({ receiver := tx.receiver_id, amount := amt, epoch := epoch,
           txId := tx.transaction_id } : OutEdge) ∈
          (alookup g.adjacency tx.sender_id).getD [] := by
  constructor
  · exact buildGraphAux_filter l {} h
  · intro tx htx amt epoch hamt hts
    exact buildGraphAux_inserts l {} h tx htx amt epoch hamt hts

unseal Rat.add Rat.sub Rat.mul Rat.inv Rat.ofScientific in
/-- Witness for C1 (amended) at a concrete batch: the record with the
unparseable timestamp is filtered out, and the parseable record's edge is
present. -/
theorem claim_C1_amended_witness :
    buildGraph c1WitnessTxs =
      buildGraph (c1WitnessTxs.filter
        (fun tx => (parseTimestamp tx.timestamp).isSome)) ∧
    ∃ g epoch, buildGraph c1WitnessTxs = some g ∧ "A" ∈ g.nodes ∧
      "B" ∈ g.nodes ∧
      ({ receiver := "B", amount := 10, epoch := epoch,
         txId := "T1" } : OutEdge) ∈ (alookup g.adjacency "A").getD [] := by
  have h := claim_C1_amended c1WitnessTxs (by decide)
  refine ⟨h.1, ?_⟩
  obtain ⟨epoch, hep⟩ := Option.isSome_iff_exists.1
    (show (parseTimestamp "2024-01-01 10:00:00").isSome from
      by decide)
  obtain ⟨g, hg, hA, hB, hedge⟩ := h.2 (mkTx "T1" "A" "B" 10 "2024-01-01 10:00:00")
    (by decide) 10 epoch rfl hep
  exact ⟨g, epoch, hg, hA, hB, hedge⟩

/-! ## Temporal density: the sliding-window loop computes the anchored
window maximum -/

theorem le_foldrMax (l : List ℕ) (x : ℕ) (hx : x ∈ l) : x ≤ l.foldr max 0 := by
  induction l with
  | nil => cases hx
  | cons a t ih =>
    rcases List.mem_cons.1 hx with rfl | h
    · exact le_max_left _ _
    · exact le_trans (ih h) (le_max_right _ _)

theorem foldrMax_le (l : List ℕ) (m : ℕ) (h : ∀ x ∈ l, x ≤ m) :
    l.foldr max 0 ≤ m := by
  induction l with
  | nil => exact Nat.zero_le m
  | cons a t ih =>
    exact max_le (h a (List.mem_cons_self a t))
      (ih fun x hx => h x (List.mem_cons_of_mem a hx))

theorem foldrMax_perm (l1 l2 : List ℕ) (h : l1.Perm l2) :
    l1.foldr max 0 = l2.foldr max 0 :=
  le_antisymm
    (foldrMax_le _ _ fun x hx => le_foldrMax _ x (h.mem_iff.1 hx))
    (foldrMax_le _ _ fun x hx => le_foldrMax _ x (h.mem_iff.2 hx))

/-- A list is the table of its `nthQ` values. -/
theorem nthQ_table (s : List ℚ) : (List.range s.length).map (nthQ s) = s := by
  induction s with
  | nil => rfl
  | cons a t ih =>
    rw [List.length_cons, List.range_succ_eq_map, List.map_cons, List.map_map]
    have h2 : (nthQ (a :: t)) ∘ Nat.succ = nthQ t := by
      funext j
      rfl
    rw [h2, ih]
    rfl

/-- In a `≤`-sorted list, `nthQ` is monotone on in-bounds indices. -/
theorem nthQ_mono (s : List ℚ) (hs : List.Sorted (fun a b => a ≤ b) s) :
    ∀ j k, j ≤ k → k < s.length → nthQ s j ≤ nthQ s k := by
  intro j k hjk hk
  rcases Nat.eq_or_lt_of_le hjk with rfl | h
  · exact le_refl _
  · have hj : j < s.length := lt_trans h hk
    have hrel := List.Sorted.rel_get_of_lt hs
      (show (⟨j, hj⟩ : Fin s.length) < ⟨k, hk⟩ from h)
    rw [nthQ, nthQ, List.getD_eq_get s 0 hj, List.getD_eq_get s 0 hk]
    exact hrel

/-- The inner `while` of the density loop: with fuel exceeding `i - ws`, it
stops at the least index at most `w` behind the anchor, never passing the
anchor itself. -/
theorem advanceWin_spec (s : List ℚ) (w : ℚ) (hw : 0 ≤ w)
    (hmono : ∀ j k, j ≤ k → k < s.length → nthQ s j ≤ nthQ s k) :
    ∀ fuel ws i, ws ≤ i → i < s.length → i - ws < fuel →
      ws ≤ advanceWin s w (nthQ s i) fuel ws ∧
      advanceWin s w (nthQ s i) fuel ws ≤ i ∧
      nthQ s i - nthQ s (advanceWin s w (nthQ s i) fuel ws) ≤ w ∧
      (∀ j, ws ≤ j → j < advanceWin s w (nthQ s i) fuel ws →
        w < nthQ s i - nthQ s j) := by
  intro fuel
  induction fuel with
  | zero => intro ws i h1 h2 h3; omega
  | succ f ih =>
    intro ws i h1 h2 h3
    have hstep : advanceWin s w (nthQ s i) (f + 1) ws =
        if w < nthQ s i - nthQ s ws then advanceWin s w (nthQ s i) f (ws + 1)
        else ws := rfl
    by_cases hc : w < nthQ s i - nthQ s ws
    · have hne : ws ≠ i := by
        intro he
        rw [he, sub_self] at hc
        exact absurd (lt_of_le_of_lt hw hc) (lt_irrefl 0)
      have h1' : ws + 1 ≤ i := Nat.lt_of_le_of_ne h1 hne
      have h3' : i - (ws + 1) < f := by omega
      obtain ⟨a1, a2, a3, a4⟩ := ih (ws + 1) i h1' h2 h3'
      rw [hstep, if_pos hc]
      refine ⟨le_trans (Nat.le_succ ws) a1, a2, a3, ?_⟩
      intro j hj1 hj2
      rcases Nat.eq_or_lt_of_le hj1 with rfl | hj
      · exact hc
      · exact a4 j hj hj2
    · rw [hstep, if_neg hc]
      exact ⟨le_refl ws, h1, not_lt.1 hc,
        fun j hj1 hj2 => absurd (lt_of_le_of_lt hj1 hj2) (lt_irrefl ws)⟩

/-- When the window pointer `ws1` sits at the least index at most `w`
behind the anchor `i`, the loop's count `i - ws1 + 1` is the number of
indices `j ≤ i` within `w` of the anchor. -/
theorem cntA_eq (s : List ℚ) (w : ℚ) (i ws1 : ℕ)
    (hmono : ∀ j k, j ≤ k → k < s.length → nthQ s j ≤ nthQ s k)
    (h1 : ws1 ≤ i) (hi : i < s.length)
    (hlow : ∀ j, j < ws1 → w < nthQ s i - nthQ s j)
    (hhigh : nthQ s i - nthQ s ws1 ≤ w) :
    cntA s w i = i - ws1 + 1 := by
  have hcong : ∀ j ∈ List.range (i + 1),
      (decide (nthQ s i - nthQ s j ≤ w) = true) ↔ (decide (ws1 ≤ j) = true) := by
    intro j hj
    have hji : j ≤ i := Nat.lt_succ_iff.1 (List.mem_range.1 hj)
    simp only [decide_eq_true_eq]
    by_cases hc : ws1 ≤ j
    · have hm : nthQ s ws1 ≤ nthQ s j :=
        hmono ws1 j hc (lt_of_le_of_lt hji hi)
      have hd : nthQ s i - nthQ s j ≤ w := le_trans (by linarith) hhigh
      exact iff_of_true hd hc
    · have hjlt : j < ws1 := not_le.1 hc
      have hd : ¬ (nthQ s i - nthQ s j ≤ w) := not_le.2 (hlow j hjlt)
      exact iff_of_false hd hc
  rw [cntA, List.countP_congr hcong]
  have hn : List.range (i + 1) =
      List.range ws1 ++ (List.range (i + 1 - ws1)).map (fun x => ws1 + x) := by
    rw [← List.range_add]
    congr 1
    omega
  rw [hn, List.countP_append]
  have hz : (List.range ws1).countP (fun j => decide (ws1 ≤ j)) = 0 := by
    apply List.countP_eq_zero.2
    intro j hj
    have hjr := List.mem_range.1 hj
    simp only [decide_eq_true_eq]
    omega
  have hf : ((List.range (i + 1 - ws1)).map (fun x => ws1 + x)).countP
      (fun j => decide (ws1 ≤ j)) = i + 1 - ws1 := by
    rw [List.countP_map]
    have hall : ∀ x ∈ List.range (i + 1 - ws1),
        ((fun j => decide (ws1 ≤ j)) ∘ (fun x => ws1 + x)) x = true := by
      intro x hx
      simp only [Function.comp_apply, decide_eq_true_eq]
      omega
    rw [List.countP_eq_length.2 hall, List.length_range]
  rw [hz, hf]
  omega

/-- The outer loop of `_compute_temporal_density`: starting at position `i`
with a valid window pointer, it returns the running maximum joined with the
per-anchor counts of all remaining anchors. -/
theorem tdLoopGo_spec (s : List ℚ) (w : ℚ) (hw : 0 ≤ w)
    (hmono : ∀ j k, j ≤ k → k < s.length → nthQ s j ≤ nthQ s k) :
    ∀ t i ws m, t = s.drop i → ws ≤ i →
      (i < s.length → ∀ j, j < ws → w < nthQ s i - nthQ s j) →
      tdLoopGo s w t i ws m =
        max m (((List.range (s.length - i)).map
          (fun d => cntA s w (i + d))).foldr max 0) := by
  intro t
  induction t with
  | nil =>
    intro i ws m ht hws hhist
    have hi : s.length ≤ i := by
      by_contra hlt
      push_neg at hlt
      have hlen := congrArg List.length ht
      rw [List.length_drop] at hlen
      simp only [List.length_nil] at hlen
      omega
    rw [show s.length - i = 0 from by omega]
    simp [tdLoopGo]
  | cons e rest ih =>
    intro i ws m ht hws hhist
    have hi : i < s.length := by
      by_contra hge
      push_neg at hge
      rw [List.drop_eq_nil_of_le hge] at ht
      exact absurd ht (List.cons_ne_nil e rest)
    have he : e = nthQ s i := by
      have h0 : (List.drop i s)[0]? = some e := by
        rw [← ht]
        exact List.getElem?_cons_zero
      rw [List.getElem?_drop, Nat.add_zero] at h0
      rw [nthQ, List.getD_eq_getElem?_getD, h0]
      rfl
    have hrest : rest = s.drop (i + 1) := by
      have hq := congrArg List.tail ht
      simp only [List.tail_cons] at hq
      rw [hq, List.tail_drop]
    have hfuel : i - ws < s.length := lt_of_le_of_lt (Nat.sub_le i ws) hi
    obtain ⟨a1, a2, a3, a4⟩ :=
      advanceWin_spec s w hw hmono s.length ws i hws hi hfuel
    have hlow : ∀ j, j < advanceWin s w (nthQ s i) s.length ws →
        w < nthQ s i - nthQ s j := by
      intro j hj
      rcases lt_or_ge j ws with hws' | hws'
      · exact hhist hi j hws'
      · exact a4 j hws' hj
    have hcnt : cntA s w i =
        i - advanceWin s w (nthQ s i) s.length ws + 1 :=
      cntA_eq s w i _ hmono a2 hi hlow a3
    have hstep : tdLoopGo s w (e :: rest) i ws m =
        tdLoopGo s w rest (i + 1) (advanceWin s w e s.length ws)
          (max m (i - advanceWin s w e s.length ws + 1)) := rfl
    rw [hstep, he]
    rw [ih (i + 1) (advanceWin s w (nthQ s i) s.length ws)
      (max m (i - advanceWin s w (nthQ s i) s.length ws + 1)) hrest
      (le_trans a2 (Nat.le_succ i))
      (fun hi1 j hj => by
        have hlt := hlow j hj
        have hmn : nthQ s i ≤ nthQ s (i + 1) :=
          hmono i (i + 1) (Nat.le_succ i) hi1
        linarith)]
    have hlen : s.length - i = (s.length - (i + 1)) + 1 := by omega
    rw [hlen, List.range_succ_eq_map, List.map_cons, List.map_map]
    have hfun : (fun d => cntA s w (i + d)) ∘ Nat.succ =
        fun d => cntA s w ((i + 1) + d) := by
      funext d
      simp only [Function.comp_apply]
      congr 1
      omega
    rw [hfun]
    have hhead : cntA s w (i + 0) =
        i - advanceWin s w (nthQ s i) s.length ws + 1 := by
      rw [Nat.add_zero, hcnt]
    rw [List.foldr_cons, hhead, ← max_assoc]

/-- `tdLoop` computes the maximum over all anchors of the per-anchor
count. -/
theorem tdLoop_eq (s : List ℚ) (w : ℚ) (hw : 0 ≤ w)
    (hmono : ∀ j k, j ≤ k → k < s.length → nthQ s j ≤ nthQ s k) :
    tdLoop s w = ((List.range s.length).map (cntA s w)).foldr max 0 := by
  rw [tdLoop, tdLoopGo_spec s w hw hmono s 0 0 0 (by rw [List.drop_zero])
    (le_refl 0) (fun _ j hj => absurd hj (Nat.not_lt_zero j))]
  rw [Nat.sub_zero, Nat.zero_max]
  congr 1
  apply List.map_congr_left
  intro d _
  rw [Nat.zero_add]

/-- Counting over a list is counting over its index table. -/
theorem countP_eq_table (s : List ℚ) (p : ℚ → Bool) :
    s.countP p = (List.range s.length).countP (p ∘ nthQ s) := by
  conv_lhs => rw [← nthQ_table s]
  rw [List.countP_map]

/-- Each per-anchor (index) count is at most the count of values in the
window anchored at that index's value. -/
theorem cntA_le_anchor (s : List ℚ) (w : ℚ) (i : ℕ) (hi : i < s.length)
    (hmono : ∀ j k, j ≤ k → k < s.length → nthQ s j ≤ nthQ s k) :
    cntA s w i ≤ s.countP (fun y =>
      decide (nthQ s i - w ≤ y) && decide (y ≤ nthQ s i)) := by
  rw [countP_eq_table s _, cntA]
  have hmonoP : (List.range (i + 1)).countP
        (fun j => decide (nthQ s i - nthQ s j ≤ w)) ≤
      (List.range (i + 1)).countP
        ((fun y => decide (nthQ s i - w ≤ y) && decide (y ≤ nthQ s i)) ∘
          nthQ s) := by
    apply List.countP_mono_left
    intro j hj hpj
    have hji : j ≤ i := Nat.lt_succ_iff.1 (List.mem_range.1 hj)
    simp only [decide_eq_true_eq] at hpj
    simp only [Function.comp_apply, Bool.and_eq_true, decide_eq_true_eq]
    exact ⟨by linarith, hmono j i hji hi⟩
  refine le_trans hmonoP ?_
  have hn : List.range s.length =
      List.range (i + 1) ++
        (List.range (s.length - (i + 1))).map (fun x => (i + 1) + x) := by
    rw [← List.range_add]
    congr 1
    omega
  rw [hn, List.countP_append]
  exact Nat.le_add_right _ _

/-- Each anchored window count equals the per-index count at the last index
holding the anchor's value. -/
theorem anchor_eq_cntA (s : List ℚ) (w : ℚ) (i : ℕ) (hi : i < s.length)
    (hmono : ∀ j k, j ≤ k → k < s.length → nthQ s j ≤ nthQ s k) :
    ∃ k, k < s.length ∧
      s.countP (fun y =>
        decide (nthQ s i - w ≤ y) && decide (y ≤ nthQ s i)) = cntA s w k := by
  set k := Nat.findGreatest (fun j => nthQ s j ≤ nthQ s i) (s.length - 1)
    with hkdef
  have hik : i ≤ k := Nat.le_findGreatest (by omega) (le_refl _)
  have hk1 : k ≤ s.length - 1 := Nat.findGreatest_le _
  have hkl : k < s.length := by omega
  have hPk : nthQ s k ≤ nthQ s i :=
    @Nat.findGreatest_spec i (fun j => nthQ s j ≤ nthQ s i) _ (s.length - 1)
      (by omega) (le_refl _)
  have hkeq : nthQ s k = nthQ s i := le_antisymm hPk (hmono i k hik hkl)
  have hgt : ∀ j, k < j → j < s.length → nthQ s i < nthQ s j := by
    intro j hkj hjl
    have hnP : ¬ (nthQ s j ≤ nthQ s i) :=
      Nat.findGreatest_is_greatest hkj (by omega)
    exact not_le.1 hnP
  refine ⟨k, hkl, ?_⟩
  rw [countP_eq_table s _, cntA]
  have hn : List.range s.length =
      List.range (k + 1) ++
        (List.range (s.length - (k + 1))).map (fun x => (k + 1) + x) := by
    rw [← List.range_add]
    congr 1
    omega
  rw [hn, List.countP_append]
  have htail : ((List.range (s.length - (k + 1))).map
      (fun x => (k + 1) + x)).countP
      ((fun y => decide (nthQ s i - w ≤ y) && decide (y ≤ nthQ s i)) ∘
        nthQ s) = 0 := by
    rw [List.countP_map]
    apply List.countP_eq_zero.2
    intro x hx
    have hxr := List.mem_range.1 hx
    have hgt2 := hgt ((k + 1) + x) (by omega) (by omega)
    simp only [Function.comp_apply, Bool.and_eq_true, decide_eq_true_eq,
      not_and]
    intro _
    exact not_le.2 hgt2
  have hhead : (List.range (k + 1)).countP
      ((fun y => decide (nthQ s i - w ≤ y) && decide (y ≤ nthQ s i)) ∘
        nthQ s) =
      (List.range (k + 1)).countP
        (fun j => decide (nthQ s k - nthQ s j ≤ w)) := by
    apply List.countP_congr
    intro j hj
    have hjk : j ≤ k := Nat.lt_succ_iff.1 (List.mem_range.1 hj)
    have hle : nthQ s j ≤ nthQ s i := hkeq ▸ hmono j k hjk hkl
    simp only [Function.comp_apply, Bool.and_eq_true, decide_eq_true_eq]
    rw [hkeq]
    constructor
    · rintro ⟨hp, _⟩
      linarith
    · intro hp
      exact ⟨by linarith, hle⟩
  rw [htail, hhead, Nat.add_zero]

/-- The loop's index-anchored maximum equals the value-anchored window
maximum over the sorted list. -/
theorem idxMax_eq_anchorMax (s : List ℚ) (w : ℚ)
    (hmono : ∀ j k, j ≤ k → k < s.length → nthQ s j ≤ nthQ s k) :
    ((List.range s.length).map (cntA s w)).foldr max 0 =
      (s.map (fun x => s.countP (fun y =>
        decide (x - w ≤ y) && decide (y ≤ x)))).foldr max 0 := by
  apply le_antisymm
  · apply foldrMax_le
    intro x hx
    obtain ⟨i, hir, hix⟩ := List.mem_map.1 hx
    have hi : i < s.length := List.mem_range.1 hir
    refine le_trans (hix ▸ cntA_le_anchor s w i hi hmono) ?_
    refine le_foldrMax _ _ ?_
    have hsm : nthQ s i ∈ s := by
      rw [nthQ, List.getD_eq_get s 0 hi]
      exact List.get_mem s i hi
    exact List.mem_map_of_mem _ hsm
  · apply foldrMax_le
    intro x hx
    obtain ⟨v, hv, hvx⟩ := List.mem_map.1 hx
    obtain ⟨n, hn⟩ := List.mem_iff_get.1 hv
    have hnl : (n : ℕ) < s.length := n.isLt
    have hvn : v = nthQ s n := by
      rw [nthQ, List.getD_eq_get s 0 hnl, hn]
    obtain ⟨k, hk, hkeq⟩ := anchor_eq_cntA s w n hnl hmono
    refine le_trans (le_of_eq ?_) (le_foldrMax _ _
      (List.mem_map_of_mem (cntA s w) (List.mem_range.2 hk)))
    rw [← hvx, hvn]
    exact hkeq

/-- The spec-side anchored maximum is insensitive to sorting the anchor
list. -/
theorem specMax_eq_sorted (epochs : List ℚ) (w : ℚ) :
    specMaxWindowCount epochs w =
      ((List.insertionSort (fun a b => a ≤ b) epochs).map (fun x =>
        (List.insertionSort (fun a b => a ≤ b) epochs).countP
          (fun y => decide (x - w ≤ y) && decide (y ≤ x)))).foldr max 0 := by
  have hperm : (List.insertionSort (fun a b => a ≤ b) epochs).Perm epochs :=
    List.perm_insertionSort _ _
  rw [specMaxWindowCount]
  rw [show epochs.map (fun x => epochs.countP (fun y =>
      decide (x - w ≤ y) && decide (y ≤ x))) =
    epochs.map (fun x =>
      (List.insertionSort (fun a b => a ≤ b) epochs).countP (fun y =>
        decide (x - w ≤ y) && decide (y ≤ x))) from
    List.map_congr_left (fun x _ => (hperm.countP_eq _).symm)]
  exact foldrMax_perm _ _ (List.Perm.map _ hperm.symm)

/-- The anchored window maximum is at least 1 on a nonempty list. -/
theorem specMax_pos (epochs : List ℚ) (w : ℚ) (hw : 0 ≤ w)
    (h : epochs ≠ []) : 1 ≤ specMaxWindowCount epochs w := by
  obtain ⟨x, hx⟩ := List.exists_mem_of_ne_nil epochs h
  have hc : 0 < epochs.countP (fun y =>
      decide (x - w ≤ y) && decide (y ≤ x)) := by
    apply List.countP_pos.2
    refine ⟨x, hx, ?_⟩
    simp only [Bool.and_eq_true, decide_eq_true_eq]
    exact ⟨by linarith, le_refl x⟩
  exact le_trans hc (le_foldrMax _ _ (List.mem_map_of_mem _ hx))

/-- The anchored window maximum never exceeds the list length. -/
theorem specMax_le_length (epochs : List ℚ) (w : ℚ) :
    specMaxWindowCount epochs w ≤ epochs.length := by
  apply foldrMax_le
  intro x hx
  obtain ⟨a, _, hax⟩ := List.mem_map.1 hx
  rw [← hax]
  exact List.countP_le_length _

/-- C6: with at least two epoch values, the temporal density equals
`k / total_count` where `k` is the maximum number of values falling in any
window of length `TEMPORAL_WINDOW_S` (anchored at a value), and it lies in
`(0, 1]`; with fewer than two values, the density is `0`. -/
theorem claim_C6 (epochVals : List ℚ) :
    (2 ≤ epochVals.length →
      computeTemporalDensity epochVals TEMPORAL_WINDOW_S =
        (specMaxWindowCount epochVals TEMPORAL_WINDOW_S : ℚ) /
          (epochVals.length : ℚ) ∧
      0 < computeTemporalDensity epochVals TEMPORAL_WINDOW_S ∧
      computeTemporalDensity epochVals TEMPORAL_WINDOW_S ≤ 1) ∧
    (epochVals.length < 2 →
      computeTemporalDensity epochVals TEMPORAL_WINDOW_S = 0) := by
  constructor
  · intro h2
    have hw : (0 : ℚ) ≤ TEMPORAL_WINDOW_S := by norm_num [TEMPORAL_WINDOW_S]
    have hsorted : (List.insertionSort (fun a b => a ≤ b)
        epochVals).Sorted (fun a b => a ≤ b) :=
      List.sorted_insertionSort _ _
    have hmono := nthQ_mono _ hsorted
    have hne : epochVals ≠ [] := by
      intro h
      rw [h] at h2
      simp at h2
    have hk1 : 1 ≤ specMaxWindowCount epochVals TEMPORAL_WINDOW_S :=
      specMax_pos _ _ hw hne
    have hkn : specMaxWindowCount epochVals TEMPORAL_WINDOW_S ≤
        epochVals.length := specMax_le_length _ _
    have hcompute : computeTemporalDensity epochVals TEMPORAL_WINDOW_S =
        ((tdLoop (List.insertionSort (fun a b => a ≤ b) epochVals)
          TEMPORAL_WINDOW_S : ℕ) : ℚ) / (epochVals.length : ℚ) := by
      rw [computeTemporalDensity, if_neg (by omega)]
    have htd : tdLoop (List.insertionSort (fun a b => a ≤ b) epochVals)
        TEMPORAL_WINDOW_S = specMaxWindowCount epochVals TEMPORAL_WINDOW_S := by
      rw [tdLoop_eq _ _ hw hmono, idxMax_eq_anchorMax _ _ hmono,
        specMax_eq_sorted]
    have hnpos : (0 : ℚ) < (epochVals.length : ℚ) := by
      have : 0 < epochVals.length := by omega
      exact_mod_cast this
    refine ⟨?_, ?_, ?_⟩
    · rw [hcompute, htd]
    · rw [hcompute, htd]
      apply div_pos _ hnpos
      have : 0 < specMaxWindowCount epochVals TEMPORAL_WINDOW_S := hk1
      exact_mod_cast this
    · rw [hcompute, htd]
      rw [div_le_one hnpos]
      exact_mod_cast hkn
  · intro h2
    rw [computeTemporalDensity, if_pos h2]

/-- Witness for C6 on the two-element list `[0, 1000]`: both values fall in
one 72-hour window, so the density is well defined and lies in `(0, 1]`. -/
theorem claim_C6_witness :
    computeTemporalDensity [(0 : ℚ), 1000] TEMPORAL_WINDOW_S =
      (specMaxWindowCount [(0 : ℚ), 1000] TEMPORAL_WINDOW_S : ℚ) /
        (([(0 : ℚ), 1000] : List ℚ).length : ℚ) ∧
    0 < computeTemporalDensity [(0 : ℚ), 1000] TEMPORAL_WINDOW_S ∧
    computeTemporalDensity [(0 : ℚ), 1000] TEMPORAL_WINDOW_S ≤ 1 :=
  (claim_C6 [(0 : ℚ), 1000]).1 (by decide)

/-! ## Graph well-formedness and the rendering bound -/

/-- Well-formedness of a built graph: every key and endpoint mentioned by
the adjacency structures and the node statistics is a node. -/
def GraphWF (g : Graph) : Prop :=
  (∀ p ∈ g.adjacency, p.1 ∈ g.nodes ∧ ∀ e ∈ p.2, e.receiver ∈ g.nodes) ∧
  (∀ p ∈ g.reverseAdj, p.1 ∈ g.nodes ∧ ∀ e ∈ p.2, e.sender ∈ g.nodes) ∧
  (∀ p ∈ g.nodeStats, p.1 ∈ g.nodes)

/-- Membership through the `setdefault`-style conditional insertion. -/
theorem mem_aset_if {α : Type} (l : List (String × α)) (k : String) (v : α)
    (p : String × α) (c : Bool)
    (hp : p ∈ (if c = true then l else aset l k v)) :
    p = (k, v) ∨ p ∈ l := by
  by_cases hc : c = true
  · rw [if_pos hc] at hp
    exact Or.inr hp
  · rw [if_neg hc] at hp
    exact mem_aset l k v p hp

theorem insertTx_wf (g : Graph) (tx : Tx) (amt epoch : ℚ) (h : GraphWF g) :
    GraphWF (insertTx g tx amt epoch) := by
  obtain ⟨hadj, hrev, hst⟩ := h
  have hmemN : ∀ x ∈ g.nodes, x ∈ (insertTx g tx amt epoch).nodes := by
    intro x hx
    show x ∈ insertOnce (insertOnce g.nodes tx.sender_id) tx.receiver_id
    exact (mem_insertOnce _ _ _).2
      (Or.inl ((mem_insertOnce _ _ _).2 (Or.inl hx)))
  have hsender : tx.sender_id ∈ (insertTx g tx amt epoch).nodes := by
    show tx.sender_id ∈ insertOnce (insertOnce g.nodes tx.sender_id)
      tx.receiver_id
    exact (mem_insertOnce _ _ _).2
      (Or.inl ((mem_insertOnce _ _ _).2 (Or.inr rfl)))
  have hreceiver : tx.receiver_id ∈ (insertTx g tx amt epoch).nodes := by
    show tx.receiver_id ∈ insertOnce (insertOnce g.nodes tx.sender_id)
      tx.receiver_id
    exact (mem_insertOnce _ _ _).2 (Or.inr rfl)
  refine ⟨?_, ?_, ?_⟩
  · intro p hp
    have hp1 : p ∈ aset g.adjacency tx.sender_id
        (((alookup g.adjacency tx.sender_id).getD []) ++
          [{ receiver := tx.receiver_id, amount := amt, epoch := epoch,
             txId := tx.transaction_id }]) := hp
    rcases mem_aset _ _ _ _ hp1 with heq | hmem
    · subst heq
      refine ⟨hsender, ?_⟩
      intro e he
      rcases List.mem_append.1 he with h1 | h1
      · cases halk : alookup g.adjacency tx.sender_id with
        | none => rw [halk] at h1; simp at h1
        | some v =>
            rw [halk] at h1
            simp only [Option.getD_some] at h1
            exact hmemN _
              ((hadj (tx.sender_id, v) (mem_of_alookup _ _ _ halk)).2 e h1)
      · rw [List.mem_singleton.1 h1]
        exact hreceiver
    · exact ⟨hmemN _ (hadj p hmem).1,
        fun e he => hmemN _ ((hadj p hmem).2 e he)⟩
  · intro p hp
    have hp1 : p ∈ aset g.reverseAdj tx.receiver_id
        (((alookup g.reverseAdj tx.receiver_id).getD []) ++
          [{ sender := tx.sender_id, amount := amt, epoch := epoch,
             txId := tx.transaction_id }]) := hp
    rcases mem_aset _ _ _ _ hp1 with heq | hmem
    · subst heq
      refine ⟨hreceiver, ?_⟩
      intro e he
      rcases List.mem_append.1 he with h1 | h1
      · cases halk : alookup g.reverseAdj tx.receiver_id with
        | none => rw [halk] at h1; simp at h1
        | some v =>
            rw [halk] at h1
            simp only [Option.getD_some] at h1
            exact hmemN _
              ((hrev (tx.receiver_id, v) (mem_of_alookup _ _ _ halk)).2 e h1)
      · rw [List.mem_singleton.1 h1]
        exact hsender
    · exact ⟨hmemN _ (hrev p hmem).1,
        fun e he => hmemN _ ((hrev p hmem).2 e he)⟩
  · intro p hp
    have hkeys : ∀ q ∈ (insertTx g tx amt epoch).nodeStats,
        q.1 = tx.sender_id ∨ q.1 = tx.receiver_id ∨ q ∈ g.nodeStats := by
      intro q hq
      have hq3 := mem_aset _ _ _ _ hq
      rcases hq3 with heq | hq3
      · exact Or.inr (Or.inl (by rw [heq]))
      · rcases mem_aset _ _ _ _ hq3 with heq | hq2
        · exact Or.inl (by rw [heq])
        · rcases mem_aset_if _ _ ({} : NodeStats) _ _ hq2 with heq | hq1
          · exact Or.inr (Or.inl (by rw [heq]))
          · rcases mem_aset_if _ _ ({} : NodeStats) _ _ hq1 with heq | hq0
            · exact Or.inl (by rw [heq])
            · exact Or.inr (Or.inr hq0)
    rcases hkeys p hp with h1 | h1 | h1
    · rw [h1]; exact hsender
    · rw [h1]; exact hreceiver
    · exact hmemN _ (hst p h1)

theorem buildGraphAux_wf (l : List Tx) (g : Graph) (hwf : GraphWF g) :
    ∀ g', buildGraphAux g l = some g' → GraphWF g' := by
  induction l generalizing g with
  | nil =>
      intro g' h
      simp only [buildGraphAux, Option.some_inj] at h
      rw [← h]
      exact hwf
  | cons tx rest ih =>
      intro g' h
      cases hamt : tx.amount with
      | none =>
          simp only [buildGraphAux, hamt] at h
          exact absurd h (by simp)
      | some amt =>
          cases hts : parseTimestamp tx.timestamp with
          | none =>
              simp only [buildGraphAux, hamt, hts] at h
              exact ih g hwf g' h
          | some epoch =>
              simp only [buildGraphAux, hamt, hts] at h
              exact ih _ (insertTx_wf g tx amt epoch hwf) g' h

theorem buildGraphAux_nodes_nodup (l : List Tx) (g : Graph)
    (hnd : g.nodes.Nodup) :
    ∀ g', buildGraphAux g l = some g' → g'.nodes.Nodup := by
  induction l generalizing g with
  | nil =>
      intro g' h
      simp only [buildGraphAux, Option.some_inj] at h
      rw [← h]
      exact hnd
  | cons tx rest ih =>
      intro g' h
      cases hamt : tx.amount with
      | none =>
          simp only [buildGraphAux, hamt] at h
          exact absurd h (by simp)
      | some amt =>
          cases hts : parseTimestamp tx.timestamp with
          | none =>
              simp only [buildGraphAux, hamt, hts] at h
              exact ih g hnd g' h
          | some epoch =>
              simp only [buildGraphAux, hamt, hts] at h
              exact ih _ (nodup_insertOnce _ _ (nodup_insertOnce _ _ hnd)) g' h

theorem buildGraph_wf (txs : List Tx) (g : Graph)
    (h : buildGraph txs = some g) : GraphWF g ∧ g.nodes.Nodup := by
  constructor
  · refine buildGraphAux_wf txs {} ⟨?_, ?_, ?_⟩ g h <;>
      exact fun p hp => absurd hp (List.not_mem_nil p)
  · exact buildGraphAux_nodes_nodup txs {} List.nodup_nil g h

/-- All members of all cycles collected so far are nodes. -/
def DfsMemInv (nodes : List String) (st : DfsSt) : Prop :=
  ∀ c ∈ st.cycles, ∀ x ∈ c, x ∈ nodes

theorem DfsMemInv_emit (nodes : List String) (st : DfsSt)
    (path1 : List String) (hp : ∀ x ∈ path1, x ∈ nodes)
    (h : DfsMemInv nodes st) :
    DfsMemInv nodes { cycles := st.cycles ++ [path1],
                      seen := st.seen ++ [cycleKey path1] } := by
  intro c hc x hx
  rcases List.mem_append.1 hc with h1 | h1
  · exact h c h1 x hx
  · rw [List.mem_singleton.1 h1] at hx
    exact hp x hx

theorem dfs_mem (adjacency : List (String × List OutEdge))
    (validNodes nodes : List String)
    (hadj : ∀ p ∈ adjacency, ∀ e ∈ p.2, e.receiver ∈ nodes) (fuel : ℕ) :
    ∀ (cur start : String) (depth : ℕ) (visited path : List String)
      (st : DfsSt), cur ∈ nodes → (∀ x ∈ path, x ∈ nodes) →
      DfsMemInv nodes st →
      DfsMemInv nodes
        (dfs adjacency validNodes fuel cur start depth visited path st) := by
  induction fuel with
  | zero => intro cur start depth visited path st hcur hpath hst; exact hst
  | succ fuel ih =>
      intro cur start depth visited path st hcur hpath hst
      simp only [dfs]
      by_cases hstop : 5 < depth ∨ MAX_CYCLES ≤ st.cycles.length
      · rw [if_pos hstop]; exact hst
      · rw [if_neg hstop]
        have hpath1 : ∀ x ∈ path ++ [cur], x ∈ nodes := by
          intro x hx
          rcases List.mem_append.1 hx with h1 | h1
          · exact hpath x h1
          · rw [List.mem_singleton.1 h1]; exact hcur
        have hedges : ∀ e ∈ (alookup adjacency cur).getD [],
            e.receiver ∈ nodes := by
          intro e he
          cases halk : alookup adjacency cur with
          | none => rw [halk] at he; simp at he
          | some l =>
              rw [halk] at he
              simp only [Option.getD_some] at he
              exact hadj (cur, l) (mem_of_alookup _ _ _ halk) e he
        apply foldl_invariant (DfsMemInv nodes) _ _ _ _ hst
        intro st2 e hmem hst2
        beta_reduce
        by_cases h1 : ¬ validNodes.contains e.receiver = true
        · rw [if_pos h1]; exact hst2
        · rw [if_neg h1]
          by_cases h2 : (e.receiver == start) = true ∧ 2 ≤ depth
          · rw [if_pos h2]
            by_cases h3 : 3 ≤ (path ++ [cur]).length ∧ (path ++ [cur]).length ≤ 5
            · rw [if_pos h3]
              cases h4 : st2.seen.contains (cycleKey (path ++ [cur])) with
              | true => simpa using hst2
              | false => simpa using DfsMemInv_emit nodes st2 _ hpath1 hst2
            · rw [if_neg h3]; exact hst2
          · rw [if_neg h2]
            by_cases h5 : ¬ (insertOnce visited cur).contains e.receiver = true ∧
                depth < 4
            · rw [if_pos h5]
              exact ih _ _ _ _ _ _ (hedges e hmem) hpath1 hst2
            · rw [if_neg h5]; exact hst2

theorem cyclesLoop_mem (adjacency : List (String × List OutEdge))
    (validNodes nodes : List String)
    (hadj : ∀ p ∈ adjacency, ∀ e ∈ p.2, e.receiver ∈ nodes) :
    ∀ starts, (∀ x ∈ starts, x ∈ nodes) → ∀ st, DfsMemInv nodes st →
      DfsMemInv nodes (cyclesLoop adjacency validNodes starts st) := by
  intro starts
  induction starts with
  | nil => intro _ st h; exact h
  | cons s rest ih =>
      intro hstarts st h
      simp only [cyclesLoop]
      split_ifs with h1
      · exact h
      · exact ih (fun x hx => hstarts x (List.mem_cons_of_mem _ hx)) _
          (dfs_mem adjacency validNodes nodes hadj 6 s s 0 [] [] st
            (hstarts s (List.mem_cons_self s rest))
            (fun x hx => absurd hx (List.not_mem_nil x)) h)

theorem detectCycles_mem (adjacency : List (String × List OutEdge))
    (nodeList : List String) (nodeStats : List (String × NodeStats))
    (nodes : List String)
    (hadj : ∀ p ∈ adjacency, ∀ e ∈ p.2, e.receiver ∈ nodes)
    (hlist : ∀ x ∈ nodeList, x ∈ nodes) :
    ∀ c ∈ detectCycles adjacency nodeList nodeStats, ∀ x ∈ c, x ∈ nodes := by
  intro c hc
  simp only [detectCycles] at hc
  refine cyclesLoop_mem adjacency _ nodes hadj _ ?_ {} ?_ c hc
  · intro x hx
    have hx2 := (List.mem_insertionSort _).1 hx
    exact hlist x (List.mem_of_mem_filter (List.mem_of_mem_filter hx2))
  · intro c2 hc2
    exact absurd hc2 (List.not_mem_nil c2)

/-- Membership through the three nested guards of one smurfing branch. -/
theorem smurf_if_helper (nodes : List String) (c1 c2 c3 : Prop)
    [Decidable c1] [Decidable c2] [Decidable c3]
    (ps : List SmurfPattern) (pat : SmurfPattern)
    (hP : ∀ q ∈ ps, q.centerAccount ∈ nodes ∧
      ∀ x ∈ q.connectedAccounts, x ∈ nodes)
    (hc : pat.centerAccount ∈ nodes)
    (hconn : ∀ x ∈ pat.connectedAccounts, x ∈ nodes) :
    ∀ q ∈ (if c1 then (if c2 then (if c3 then ps ++ [pat] else ps) else ps)
      else ps),
      q.centerAccount ∈ nodes ∧ ∀ x ∈ q.connectedAccounts, x ∈ nodes := by
  intro q hq
  split_ifs at hq
  · rcases List.mem_append.1 hq with h | h
    · exact hP q h
    · rw [List.mem_singleton.1 h]
      exact ⟨hc, hconn⟩
  all_goals exact hP q hq

theorem detectSmurfing_mem (adjacency : List (String × List OutEdge))
    (reverseAdj : List (String × List InEdge))
    (nodeStats : List (String × NodeStats)) (nodes : List String)
    (hadj : ∀ p ∈ adjacency, ∀ e ∈ p.2, e.receiver ∈ nodes)
    (hrev : ∀ p ∈ reverseAdj, ∀ e ∈ p.2, e.sender ∈ nodes)
    (hstats : ∀ p ∈ nodeStats, p.1 ∈ nodes) :
    ∀ pat ∈ detectSmurfing adjacency reverseAdj nodeStats,
      pat.centerAccount ∈ nodes ∧
      ∀ x ∈ pat.connectedAccounts, x ∈ nodes := by
  simp only [detectSmurfing]
  apply foldl_invariant (fun pats : List SmurfPattern =>
    ∀ pat ∈ pats, pat.centerAccount ∈ nodes ∧
      ∀ x ∈ pat.connectedAccounts, x ∈ nodes)
  · intro pats p hp hP
    beta_reduce
    have hcenter : p.1 ∈ nodes := hstats p hp
    have hsenders : ∀ x ∈ (((alookup reverseAdj p.1).getD []).map
        (fun t => t.sender)).foldl insertOnce [], x ∈ nodes := by
      intro x hx
      have hx2 : x ∈ insertManyOnce []
          (((alookup reverseAdj p.1).getD []).map (fun t => t.sender)) := hx
      rcases (mem_insertManyOnce _ _ _).1 hx2 with h | h
      · exact absurd h (List.not_mem_nil x)
      · obtain ⟨t, ht, hts⟩ := List.mem_map.1 h
        rw [← hts]
        cases halk : alookup reverseAdj p.1 with
        | none => rw [halk] at ht; simp at ht
        | some l =>
            rw [halk] at ht
            simp only [Option.getD_some] at ht
            exact hrev (p.1, l) (mem_of_alookup _ _ _ halk) t ht
    have hreceivers : ∀ x ∈ (((alookup adjacency p.1).getD []).map
        (fun t => t.receiver)).foldl insertOnce [], x ∈ nodes := by
      intro x hx
      have hx2 : x ∈ insertManyOnce []
          (((alookup adjacency p.1).getD []).map (fun t => t.receiver)) := hx
      rcases (mem_insertManyOnce _ _ _).1 hx2 with h | h
      · exact absurd h (List.not_mem_nil x)
      · obtain ⟨t, ht, hts⟩ := List.mem_map.1 h
        rw [← hts]
        cases halk : alookup adjacency p.1 with
        | none => rw [halk] at ht; simp at ht
        | some l =>
            rw [halk] at ht
            simp only [Option.getD_some] at ht
            exact hadj (p.1, l) (mem_of_alookup _ _ _ halk) t ht
    exact smurf_if_helper nodes _ _ _ _ _
      (smurf_if_helper nodes _ _ _ _ _ hP hcenter hsenders)
      hcenter hreceivers
  · intro q hq
    exact absurd hq (List.not_mem_nil q)

theorem extendChain_mem (adjacency : List (String × List OutEdge))
    (shells nodes : List String)
    (hadj : ∀ p ∈ adjacency, ∀ e ∈ p.2, e.receiver ∈ nodes) :
    ∀ fuel chain chainVisited current, (∀ x ∈ chain, x ∈ nodes) →
      ∀ x ∈ extendChain adjacency shells fuel chain chainVisited current,
        x ∈ nodes := by
  intro fuel
  induction fuel with
  | zero => intro chain cv cur hchain x hx; exact hchain x hx
  | succ fuel ih =>
      intro chain cv cur hchain x hx
      have hedges : ∀ e ∈ (alookup adjacency cur).getD [],
          e.receiver ∈ nodes := by
        intro e he
        cases halk : alookup adjacency cur with
        | none => rw [halk] at he; simp at he
        | some l =>
            rw [halk] at he
            simp only [Option.getD_some] at he
            exact hadj (cur, l) (mem_of_alookup _ _ _ halk) e he
      cases hfind : ((alookup adjacency cur).getD []).find? (fun e =>
          shells.contains e.receiver && ¬ cv.contains e.receiver) with
      | some e =>
          simp only [extendChain, hfind] at hx
          have hrecv : e.receiver ∈ nodes :=
            hedges e (List.mem_of_find?_eq_some hfind)
          have hchain1 : ∀ y ∈ chain ++ [e.receiver], y ∈ nodes := by
            intro y hy
            rcases List.mem_append.1 hy with h | h
            · exact hchain y h
            · rw [List.mem_singleton.1 h]; exact hrecv
          by_cases hlen : 10 < (chain ++ [e.receiver]).length
          · rw [if_pos hlen] at hx
            exact hchain1 x hx
          · rw [if_neg hlen] at hx
            exact ih _ _ _ hchain1 x hx
      | none =>
          cases hfind2 : ((alookup adjacency cur).getD []).find? (fun e =>
              ¬ shells.contains e.receiver && ¬ cv.contains e.receiver) with
          | some e =>
              simp only [extendChain, hfind, hfind2] at hx
              rcases List.mem_append.1 hx with h | h
              · exact hchain x h
              · rw [List.mem_singleton.1 h]
                exact hedges e (List.mem_of_find?_eq_some hfind2)
          | none =>
              simp only [extendChain, hfind, hfind2] at hx
              exact hchain x hx

theorem shellLoop_mem (adjacency : List (String × List OutEdge))
    (shells nodes : List String)
    (hadj : ∀ p ∈ adjacency, ∀ e ∈ p.2, e.receiver ∈ nodes) :
    ∀ starts, (∀ x ∈ starts, x ∈ nodes) → ∀ chains,
      (∀ ch ∈ chains, ∀ x ∈ ch.chain, x ∈ nodes) →
      ∀ ch ∈ shellLoop adjacency shells starts chains,
        ∀ x ∈ ch.chain, x ∈ nodes := by
  intro starts
  induction starts with
  | nil => intro _ chains h; exact h
  | cons s rest ih =>
      intro hstarts chains hchains
      have hrest : ∀ x ∈ rest, x ∈ nodes :=
        fun x hx => hstarts x (List.mem_cons_of_mem _ hx)
      have hchain : ∀ x ∈ extendChain adjacency shells 12 [s] [s] s,
          x ∈ nodes :=
        extendChain_mem adjacency shells nodes hadj 12 [s] [s] s
          (fun x hx => by
            rw [List.mem_singleton.1 hx]
            exact hstarts s (List.mem_cons_self s rest))
      simp only [shellLoop]
      split_ifs with h1 h2 h3
      · exact hchains
      · exact ih hrest chains hchains
      · apply ih hrest
        intro ch hch
        rcases List.mem_append.1 hch with h | h
        · exact hchains ch h
        · rw [List.mem_singleton.1 h]
          intro x hx
          exact hchain x hx
      · exact ih hrest chains hchains

theorem detectShellNetworks_mem (adjacency : List (String × List OutEdge))
    (nodeStats : List (String × NodeStats)) (nodes : List String)
    (hadj : ∀ p ∈ adjacency, ∀ e ∈ p.2, e.receiver ∈ nodes)
    (hstats : ∀ p ∈ nodeStats, p.1 ∈ nodes) :
    ∀ ch ∈ detectShellNetworks adjacency nodeStats,
      ∀ x ∈ ch.chain, x ∈ nodes := by
  simp only [detectShellNetworks]
  apply shellLoop_mem adjacency _ nodes hadj
  · intro x hx
    obtain ⟨p, hp, hpx⟩ := List.mem_map.1 hx
    rw [← hpx]
    exact hstats p hp
  · intro ch hch
    exact absurd hch (List.not_mem_nil ch)

/-- Keys added by `aset` stay within a membership bound. -/
theorem akeys_aset_bound {α : Type} (l : List (String × α)) (k : String)
    (v : α) (nodes : List String)
    (hl : ∀ x ∈ akeys l, x ∈ nodes) (hk : k ∈ nodes) :
    ∀ x ∈ akeys (aset l k v), x ∈ nodes := by
  intro x hx
  rw [akeys_aset] at hx
  by_cases hc : acontains l k = true
  · rw [if_pos hc] at hx
    exact hl x hx
  · rw [if_neg hc] at hx
    rcases List.mem_append.1 hx with h | h
    · exact hl x h
    · rw [List.mem_singleton.1 h]
      exact hk

theorem akeys_aadd_bound (l : List (String × ℚ)) (k : String) (x : ℚ)
    (nodes : List String) (hl : ∀ y ∈ akeys l, y ∈ nodes) (hk : k ∈ nodes) :
    ∀ y ∈ akeys (aadd l k x), y ∈ nodes :=
  akeys_aset_bound l k _ nodes hl hk

/-- Invariant of the ring-assembly stages: all score keys and all ring
members are nodes. -/
def ScoreMemInv (nodes : List String) (st : ScoreSt) : Prop :=
  (∀ x ∈ akeys st.scores, x ∈ nodes) ∧
  (∀ r ∈ st.rings, ∀ x ∈ r.member_accounts, x ∈ nodes)

theorem ScoreMemInv_applyCycle (nodes : List String) (st : ScoreSt)
    (cycle : List String) (hc : ∀ x ∈ cycle, x ∈ nodes)
    (h : ScoreMemInv nodes st) : ScoreMemInv nodes (applyCycle st cycle) := by
  obtain ⟨h1, h2⟩ := h
  constructor
  · show ∀ x ∈ akeys (cycle.foldl (fun s a => aadd s a 30) st.scores),
      x ∈ nodes
    apply foldl_invariant
      (fun l : List (String × ℚ) => ∀ x ∈ akeys l, x ∈ nodes)
    · intro s a ha hs
      exact akeys_aadd_bound s a 30 nodes hs (hc a ha)
    · exact h1
  · intro r hr
    rcases List.mem_append.1 hr with h | h
    · exact h2 r h
    · rw [List.mem_singleton.1 h]
      intro x hx
      exact hc x hx

theorem ScoreMemInv_applySmurf (nodes : List String) (st : ScoreSt)
    (pat : SmurfPattern) (hcen : pat.centerAccount ∈ nodes)
    (hconn : ∀ x ∈ pat.connectedAccounts, x ∈ nodes)
    (h : ScoreMemInv nodes st) : ScoreMemInv nodes (applySmurf st pat) := by
  obtain ⟨h1, h2⟩ := h
  constructor
  · show ∀ x ∈ akeys (pat.connectedAccounts.foldl (fun s a => aadd s a 15)
      (aadd st.scores pat.centerAccount 25)), x ∈ nodes
    apply foldl_invariant
      (fun l : List (String × ℚ) => ∀ x ∈ akeys l, x ∈ nodes)
    · intro s a ha hs
      exact akeys_aadd_bound s a 15 nodes hs (hconn a ha)
    · exact akeys_aadd_bound _ _ 25 nodes h1 hcen
  · intro r hr
    rcases List.mem_append.1 hr with h | h
    · exact h2 r h
    · rw [List.mem_singleton.1 h]
      intro x hx
      rcases List.mem_cons.1 hx with rfl | hx2
      · exact hcen
      · exact hconn x hx2

theorem ScoreMemInv_applyShell (nodes : List String) (st : ScoreSt)
    (shell : ShellChain) (hc : ∀ x ∈ shell.chain, x ∈ nodes)
    (h : ScoreMemInv nodes st) : ScoreMemInv nodes (applyShell st shell) := by
  obtain ⟨h1, h2⟩ := h
  constructor
  · show ∀ x ∈ akeys (shell.chain.foldl (fun s a => aadd s a 20) st.scores),
      x ∈ nodes
    apply foldl_invariant
      (fun l : List (String × ℚ) => ∀ x ∈ akeys l, x ∈ nodes)
    · intro s a ha hs
      exact akeys_aadd_bound s a 20 nodes hs (hc a ha)
    · exact h1
  · intro r hr
    rcases List.mem_append.1 hr with h | h
    · exact h2 r h
    · rw [List.mem_singleton.1 h]
      intro x hx
      exact hc x hx

theorem ScoreMemInv_ringStages (nodes : List String)
    (nodeStats : List (String × NodeStats)) (cycles : List (List String))
    (smurfs : List SmurfPattern) (shells : List ShellChain)
    (hstats : ∀ p ∈ nodeStats, p.1 ∈ nodes)
    (hcycles : ∀ c ∈ cycles, ∀ x ∈ c, x ∈ nodes)
    (hsmurfs : ∀ pat ∈ smurfs, pat.centerAccount ∈ nodes ∧
      ∀ x ∈ pat.connectedAccounts, x ∈ nodes)
    (hshells : ∀ ch ∈ shells, ∀ x ∈ ch.chain, x ∈ nodes) :
    ScoreMemInv nodes (ringStagesSt nodeStats cycles smurfs shells) := by
  have h0 : ScoreMemInv nodes (initialScoreSt nodeStats) := by
    constructor
    · show ∀ x ∈ akeys (nodeStats.foldl (fun s p => aset s p.1 (0 : ℚ)) []),
        x ∈ nodes
      apply foldl_invariant
        (fun l : List (String × ℚ) => ∀ x ∈ akeys l, x ∈ nodes)
      · intro s p hp hs
        exact akeys_aset_bound s p.1 0 nodes hs (hstats p hp)
      · intro x hx
        exact absurd hx (List.not_mem_nil x)
    · intro r hr
      exact absurd hr (List.not_mem_nil r)
  have h1 := foldl_invariant (ScoreMemInv nodes) applyCycle cycles _
    (fun st c hcm hst => ScoreMemInv_applyCycle nodes st c (hcycles c hcm) hst)
    h0
  have h2 := foldl_invariant (ScoreMemInv nodes) applySmurf smurfs _
    (fun st pat hm hst => ScoreMemInv_applySmurf nodes st pat
      (hsmurfs pat hm).1 (hsmurfs pat hm).2 hst) h1
  exact foldl_invariant (ScoreMemInv nodes) applyShell shells _
    (fun st sh hm hst => ScoreMemInv_applyShell nodes st sh (hshells sh hm) hst)
    h2

theorem akeys_applyAdditional_bound (nodes : List String)
    (sp : List (String × ℚ) × List (String × List String))
    (entry : String × NodeStats) (hk : entry.1 ∈ nodes)
    (h : ∀ x ∈ akeys sp.1, x ∈ nodes) :
    ∀ x ∈ akeys (applyAdditional sp entry).1, x ∈ nodes := by
  have step : ∀ (l : List (String × ℚ)) (v : ℚ),
      (∀ x ∈ akeys l, x ∈ nodes) →
      ∀ x ∈ akeys (aadd l entry.1 v), x ∈ nodes :=
    fun l v hl => akeys_aadd_bound l entry.1 v nodes hl hk
  simp only [applyAdditional]
  split_ifs <;>
    first
      | exact h
      | exact step _ _ h
      | exact step _ _ (step _ _ h)
      | exact step _ _ (step _ _ (step _ _ h))

theorem akeys_applyLegit_bound (nodes : List String)
    (sp : List (String × ℚ) × List (String × List String)) (a : String)
    (h : ∀ x ∈ akeys sp.1, x ∈ nodes) :
    ∀ x ∈ akeys (applyLegit sp a).1, x ∈ nodes := by
  simp only [applyLegit]
  split_ifs with hc
  · intro x hx
    have hx2 : x ∈ akeys (aset sp.1 a
        (ratOfInt (pyRound (((alookup sp.1 a).getD 0) * (1/2))))) := hx
    rw [akeys_aset, if_pos hc] at hx2
    exact h x hx2
  · exact h

theorem preCap_keys_bound (nodes : List String)
    (nodeStats : List (String × NodeStats)) (cycles : List (List String))
    (smurfs : List SmurfPattern) (shells : List ShellChain)
    (legit : List String)
    (hstats : ∀ p ∈ nodeStats, p.1 ∈ nodes)
    (hcycles : ∀ c ∈ cycles, ∀ x ∈ c, x ∈ nodes)
    (hsmurfs : ∀ pat ∈ smurfs, pat.centerAccount ∈ nodes ∧
      ∀ x ∈ pat.connectedAccounts, x ∈ nodes)
    (hshells : ∀ ch ∈ shells, ∀ x ∈ ch.chain, x ∈ nodes) :
    ∀ x ∈ akeys (preCapSp nodeStats cycles smurfs shells legit).1,
      x ∈ nodes := by
  have h3 := ScoreMemInv_ringStages nodes nodeStats cycles smurfs shells
    hstats hcycles hsmurfs hshells
  show ∀ x ∈ akeys (legit.foldl applyLegit (nodeStats.foldl applyAdditional
    ((ringStagesSt nodeStats cycles smurfs shells).scores,
     (ringStagesSt nodeStats cycles smurfs shells).patterns))).1, x ∈ nodes
  apply foldl_invariant
    (fun sp : List (String × ℚ) × List (String × List String) =>
      ∀ x ∈ akeys sp.1, x ∈ nodes)
  · intro sp a _ hsp
    exact akeys_applyLegit_bound nodes sp a hsp
  · apply foldl_invariant
      (fun sp : List (String × ℚ) × List (String × List String) =>
        ∀ x ∈ akeys sp.1, x ∈ nodes)
    · intro sp entry hmem hsp
      exact akeys_applyAdditional_bound nodes sp entry (hstats entry hmem) hsp
    · exact h3.1

theorem scores_keys_bound (nodes : List String)
    (nodeStats : List (String × NodeStats)) (cycles : List (List String))
    (smurfs : List SmurfPattern) (shells : List ShellChain)
    (legit : List String)
    (hstats : ∀ p ∈ nodeStats, p.1 ∈ nodes)
    (hcycles : ∀ c ∈ cycles, ∀ x ∈ c, x ∈ nodes)
    (hsmurfs : ∀ pat ∈ smurfs, pat.centerAccount ∈ nodes ∧
      ∀ x ∈ pat.connectedAccounts, x ∈ nodes)
    (hshells : ∀ ch ∈ shells, ∀ x ∈ ch.chain, x ∈ nodes) :
    ∀ x ∈ akeys (calculateSuspicionScores nodeStats cycles smurfs shells
      legit).scores, x ∈ nodes := by
  intro x hx
  have heq : akeys (calculateSuspicionScores nodeStats cycles smurfs shells
      legit).scores =
      akeys (preCapSp nodeStats cycles smurfs shells legit).1 := by
    show akeys ((preCapSp nodeStats cycles smurfs shells legit).1.map
      (fun p => (p.1, capScore p.2))) = _
    exact akeys_map_snd _ (fun p => capScore p.2)
  rw [heq] at hx
  exact preCap_keys_bound nodes nodeStats cycles smurfs shells legit hstats
    hcycles hsmurfs hshells x hx

theorem rings_members_bound (nodes : List String)
    (nodeStats : List (String × NodeStats)) (cycles : List (List String))
    (smurfs : List SmurfPattern) (shells : List ShellChain)
    (legit : List String)
    (hstats : ∀ p ∈ nodeStats, p.1 ∈ nodes)
    (hcycles : ∀ c ∈ cycles, ∀ x ∈ c, x ∈ nodes)
    (hsmurfs : ∀ pat ∈ smurfs, pat.centerAccount ∈ nodes ∧
      ∀ x ∈ pat.connectedAccounts, x ∈ nodes)
    (hshells : ∀ ch ∈ shells, ∀ x ∈ ch.chain, x ∈ nodes) :
    ∀ r ∈ (calculateSuspicionScores nodeStats cycles smurfs shells
      legit).rings, ∀ x ∈ r.member_accounts, x ∈ nodes := by
  intro r hr
  have hr2 : r ∈ (ringStagesSt nodeStats cycles smurfs shells).rings.map
      (ringWithRisk (finalScores nodeStats cycles smurfs shells legit)) := hr
  obtain ⟨r0, hr0, hrr⟩ := List.mem_map.1 hr2
  have hmem : (ringWithRisk (finalScores nodeStats cycles smurfs shells
      legit) r0).member_accounts = r0.member_accounts := by
    simp only [ringWithRisk]
    split <;> rfl
  rw [← hrr, hmem]
  exact (ScoreMemInv_ringStages nodes nodeStats cycles smurfs shells hstats
    hcycles hsmurfs hshells).2 r0 hr0

theorem suspiciousList_ids_bound (nodes : List String)
    (result : SuspicionResult)
    (h : ∀ x ∈ akeys result.scores, x ∈ nodes) :
    ∀ a ∈ suspiciousList result, a.account_id ∈ nodes := by
  intro a ha
  simp only [suspiciousList] at ha
  have ha2 := (List.mem_insertionSort _).1 ha
  obtain ⟨p, hp, hpa⟩ := List.mem_map.1 ha2
  rw [← hpa]
  refine h p.1 ?_
  simp only [akeys, List.mem_map]
  exact ⟨p, List.mem_of_mem_filter hp, rfl⟩

theorem addNeighbors_bound (adjacency : List (String × List OutEdge))
    (reverseAdj : List (String × List InEdge)) (nodes : List String)
    (hadj : ∀ p ∈ adjacency, ∀ e ∈ p.2, e.receiver ∈ nodes)
    (hrev : ∀ p ∈ reverseAdj, ∀ e ∈ p.2, e.sender ∈ nodes) :
    ∀ (accs : List SuspiciousAccount) (ntr : List String),
      (∀ x ∈ ntr, x ∈ nodes) → ntr.Nodup →
      (∀ x ∈ addNeighbors adjacency reverseAdj accs ntr, x ∈ nodes) ∧
      (addNeighbors adjacency reverseAdj accs ntr).Nodup := by
  intro accs
  induction accs with
  | nil => intro ntr h1 h2; exact ⟨h1, h2⟩
  | cons acc rest ih =>
      intro ntr h1 h2
      simp only [addNeighbors]
      split_ifs with hg
      · exact ⟨h1, h2⟩
      · apply ih
        · intro x hx
          rcases (mem_insertManyOnce _ _ _).1 hx with hx1 | hx1
          · rcases (mem_insertManyOnce _ _ _).1 hx1 with hx2 | hx2
            · exact h1 x hx2
            · obtain ⟨e, he, hex⟩ := List.mem_map.1 hx2
              rw [← hex]
              have he2 := List.take_subset _ _ he
              cases halk : alookup adjacency acc.account_id with
              | none => rw [halk] at he2; simp at he2
              | some l =>
                  rw [halk] at he2
                  simp only [Option.getD_some] at he2
                  exact hadj (acc.account_id, l) (mem_of_alookup _ _ _ halk)
                    e he2
          · obtain ⟨e, he, hex⟩ := List.mem_map.1 hx1
            rw [← hex]
            have he2 := List.take_subset _ _ he
            cases halk : alookup reverseAdj acc.account_id with
            | none => rw [halk] at he2; simp at he2
            | some l =>
                rw [halk] at he2
                simp only [Option.getD_some] at he2
                exact hrev (acc.account_id, l) (mem_of_alookup _ _ _ halk)
                  e he2
        · exact nodup_insertManyOnce _ _ (nodup_insertManyOnce _ _ h2)

/-- Folding node ids into the render set preserves the bound and
distinctness. -/
theorem foldl_insertOnce_bound (nodes : List String) (ntr : List String)
    (ps : List (String × ℕ)) (hps : ∀ p ∈ ps, p.1 ∈ nodes)
    (h1 : ∀ x ∈ ntr, x ∈ nodes) (h2 : ntr.Nodup) :
    (∀ x ∈ ps.foldl (fun l p => insertOnce l p.1) ntr, x ∈ nodes) ∧
    (ps.foldl (fun l p => insertOnce l p.1) ntr).Nodup := by
  apply foldl_invariant
    (fun l : List String => (∀ x ∈ l, x ∈ nodes) ∧ l.Nodup)
  · intro l p hp hl
    refine ⟨?_, nodup_insertOnce _ _ hl.2⟩
    intro x hx
    rcases (mem_insertOnce _ _ _).1 hx with h | h
    · exact hl.1 x h
    · rw [h]
      exact hps p hp
  · exact ⟨h1, h2⟩

theorem nodesToRender_bound (g : Graph) (susSet ringSet : List String)
    (susAccs : List SuspiciousAccount) (hwf : GraphWF g)
    (hsus : ∀ x ∈ susSet, x ∈ g.nodes)
    (hring : ∀ x ∈ ringSet, x ∈ g.nodes) :
    (∀ x ∈ nodesToRender g susSet ringSet susAccs, x ∈ g.nodes) ∧
    (nodesToRender g susSet ringSet susAccs).Nodup := by
  obtain ⟨hadj, hrev, _⟩ := hwf
  have hadjE : ∀ p ∈ g.adjacency, ∀ e ∈ p.2, e.receiver ∈ g.nodes :=
    fun p hp => (hadj p hp).2
  have hrevE : ∀ p ∈ g.reverseAdj, ∀ e ∈ p.2, e.sender ∈ g.nodes :=
    fun p hp => (hrev p hp).2
  have h0 : (∀ x ∈ insertManyOnce (insertManyOnce [] ringSet) susSet,
      x ∈ g.nodes) ∧
      (insertManyOnce (insertManyOnce [] ringSet) susSet).Nodup := by
    constructor
    · intro x hx
      rcases (mem_insertManyOnce _ _ _).1 hx with h | h
      · rcases (mem_insertManyOnce _ _ _).1 h with h2 | h2
        · exact absurd h2 (List.not_mem_nil x)
        · exact hring x h2
      · exact hsus x h
    · exact nodup_insertManyOnce _ _ (nodup_insertManyOnce _ _ List.nodup_nil)
  simp only [nodesToRender]
  split_ifs with hlarge hslots
  · refine addNeighbors_bound g.adjacency g.reverseAdj g.nodes hadjE hrevE
      _ _ ?_ ?_
    · refine (foldl_insertOnce_bound g.nodes _ _ ?_ h0.1 h0.2).1
      intro p hp
      have hp2 := (List.mem_insertionSort _).1 (List.take_subset _ _ hp)
      obtain ⟨nid, hnid, hnp⟩ := List.mem_map.1 hp2
      rw [← hnp]
      exact List.mem_of_mem_filter hnid
    · refine (foldl_insertOnce_bound g.nodes _ _ ?_ h0.1 h0.2).2
      intro p hp
      have hp2 := (List.mem_insertionSort _).1 (List.take_subset _ _ hp)
      obtain ⟨nid, hnid, hnp⟩ := List.mem_map.1 hp2
      rw [← hnp]
      exact List.mem_of_mem_filter hnid
  · exact addNeighbors_bound g.adjacency g.reverseAdj g.nodes hadjE hrevE
      _ _ h0.1 h0.2
  · constructor
    · intro x hx
      have hx2 : x ∈ insertManyOnce [] g.nodes := hx
      rcases (mem_insertManyOnce _ _ _).1 hx2 with h | h
      · exact absurd h (List.not_mem_nil x)
      · exact h
    · exact nodup_insertManyOnce _ _ List.nodup_nil

/-- Inserting pairwise-new distinct elements into a dedup list appends
them. -/
theorem insertManyOnce_eq_append :
    ∀ (xs acc : List String), acc.Nodup → xs.Nodup →
      (∀ x ∈ xs, x ∉ acc) → insertManyOnce acc xs = acc ++ xs := by
  intro xs
  induction xs with
  | nil => intro acc _ _ _; simp [insertManyOnce]
  | cons x rest ih =>
      intro acc hacc hxs hfresh
      have hx : x ∉ acc := hfresh x (List.mem_cons_self x rest)
      have hio : insertOnce acc x = acc ++ [x] := by
        simp only [insertOnce]
        rw [if_neg (fun hc => hx (List.elem_iff.1 hc))]
      show insertManyOnce (insertOnce acc x) rest = acc ++ x :: rest
      rw [hio, ih (acc ++ [x])
        (by
          rw [List.nodup_append]
          exact ⟨hacc, List.nodup_singleton x, by
            intro y hy
            simp only [List.mem_singleton]
            intro he
            rw [he] at hy
            exact hx hy⟩)
        (List.Nodup.of_cons hxs)
        (by
          intro y hy
          rw [List.mem_append, List.mem_singleton]
          rintro (h1 | rfl)
          · exact hfresh y (List.mem_cons_of_mem _ hy) h1
          · exact (List.nodup_cons.1 hxs).1 hy)]
      rw [List.append_assoc]
      rfl

unseal Rat.add Rat.sub Rat.mul Rat.inv Rat.ofScientific in
/-- C9: for every input batch, the frontend graph projection renders at
most as many nodes as the graph has; and whenever the graph has at most 300
nodes, the projection is unfiltered and renders every node. -/
theorem claim_C9 (txs : List Tx) (r : Report) (h : analyze txs = some r) :
    r.graph_data.renderedNodes ≤ r.graph_data.totalNodes ∧
    (r.graph_data.totalNodes ≤ 300 →
      r.graph_data.isFiltered = false ∧
      r.graph_data.renderedNodes = r.graph_data.totalNodes) := by
  simp only [analyze, Option.map_eq_some'] at h
  obtain ⟨g, hg, hr⟩ := h
  obtain ⟨hwf, hnd⟩ := buildGraph_wf txs g hg
  obtain ⟨hadj, hrev, hstats⟩ := hwf
  have hadjE : ∀ p ∈ g.adjacency, ∀ e ∈ p.2, e.receiver ∈ g.nodes :=
    fun p hp => (hadj p hp).2
  have hrevE : ∀ p ∈ g.reverseAdj, ∀ e ∈ p.2, e.sender ∈ g.nodes :=
    fun p hp => (hrev p hp).2
  have hcycles := detectCycles_mem g.adjacency g.nodes g.nodeStats g.nodes
    hadjE (fun x hx => hx)
  have hsmurfs := detectSmurfing_mem g.adjacency g.reverseAdj g.nodeStats
    g.nodes hadjE hrevE hstats
  have hshells := detectShellNetworks_mem g.adjacency g.nodeStats g.nodes
    hadjE hstats
  have hscores : ∀ x ∈ akeys (suspicionOf g).scores, x ∈ g.nodes :=
    scores_keys_bound g.nodes g.nodeStats _ _ _ _ hstats hcycles hsmurfs
      hshells
  have hrings : ∀ ring ∈ (suspicionOf g).rings,
      ∀ x ∈ ring.member_accounts, x ∈ g.nodes :=
    rings_members_bound g.nodes g.nodeStats _ _ _ _ hstats hcycles hsmurfs
      hshells
  have hsusIds : ∀ a ∈ suspiciousList (suspicionOf g),
      a.account_id ∈ g.nodes :=
    suspiciousList_ids_bound g.nodes (suspicionOf g) hscores
  have hSUS : ∀ x ∈ ((suspiciousList (suspicionOf g)).map
      (fun a => a.account_id)).foldl insertOnce [], x ∈ g.nodes := by
    intro x hx
    have hx2 : x ∈ insertManyOnce []
        ((suspiciousList (suspicionOf g)).map (fun a => a.account_id)) := hx
    rcases (mem_insertManyOnce _ _ _).1 hx2 with h1 | h1
    · exact absurd h1 (List.not_mem_nil x)
    · obtain ⟨a, ha, hax⟩ := List.mem_map.1 h1
      rw [← hax]
      exact hsusIds a ha
  have hRING : ∀ x ∈ (List.insertionSort
      (fun a b => (b : Ring).risk_score ≤ a.risk_score)
      (suspicionOf g).rings).foldl
      (fun s ring => insertManyOnce s ring.member_accounts) [],
      x ∈ g.nodes := by
    apply foldl_invariant (fun l : List String => ∀ x ∈ l, x ∈ g.nodes)
    · intro s ring hm hs x hx
      rcases (mem_insertManyOnce _ _ _).1 hx with h1 | h1
      · exact hs x h1
      · exact hrings ring ((List.mem_insertionSort _).1 hm) x h1
    · intro x hx
      exact absurd hx (List.not_mem_nil x)
  have hntr := nodesToRender_bound g _ _ (suspiciousList (suspicionOf g))
    ⟨hadj, hrev, hstats⟩ hSUS hRING
  have hrw1 : r.graph_data.renderedNodes = (nodesToRender g
      (((suspiciousList (suspicionOf g)).map
        (fun a => a.account_id)).foldl insertOnce [])
      ((List.insertionSort (fun a b => (b : Ring).risk_score ≤ a.risk_score)
        (suspicionOf g).rings).foldl
        (fun s ring => insertManyOnce s ring.member_accounts) [])
      (suspiciousList (suspicionOf g))).length := by
    rw [← hr]
    rfl
  have hrw2 : r.graph_data.totalNodes = g.nodes.length := by
    rw [← hr]
    rfl
  have hrw3 : r.graph_data.isFiltered = decide (300 < g.nodes.length) := by
    rw [← hr]
    rfl
  constructor
  · rw [hrw1, hrw2]
    exact List.Subperm.length_le
      (hntr.2.subperm (fun {x} hx => hntr.1 x hx))
  · intro hsmall
    rw [hrw2] at hsmall
    have hnl : ¬ (300 < g.nodes.length) := not_lt.2 hsmall
    constructor
    · rw [hrw3]
      exact decide_eq_false hnl
    · rw [hrw1, hrw2]
      have heq : nodesToRender g
          (((suspiciousList (suspicionOf g)).map
            (fun a => a.account_id)).foldl insertOnce [])
          ((List.insertionSort
            (fun a b => (b : Ring).risk_score ≤ a.risk_score)
            (suspicionOf g).rings).foldl
            (fun s ring => insertManyOnce s ring.member_accounts) [])
          (suspiciousList (suspicionOf g)) = g.nodes := by
        simp only [nodesToRender]
        rw [if_neg hnl]
        have hid := insertManyOnce_eq_append g.nodes [] List.nodup_nil hnd
          (fun x _ => List.not_mem_nil x)
        show insertManyOnce [] g.nodes = g.nodes
        rw [hid]
        exact List.nil_append g.nodes
      rw [heq]

/-- Witness for C9 at the empty batch: the empty report renders 0 of 0
nodes, unfiltered. -/
theorem claim_C9_witness :
    emptyReport.graph_data.renderedNodes ≤
      emptyReport.graph_data.totalNodes ∧
    (emptyReport.graph_data.totalNodes ≤ 300 →
      emptyReport.graph_data.isFiltered = false ∧
      emptyReport.graph_data.renderedNodes =
        emptyReport.graph_data.totalNodes) :=
  claim_C9 [] emptyReport rfl

end UnMask
